import Mathlib

/-!
Shallow embedding of the best-of-n TTS candidate engine
(`src/infra/miotts_server`): token parsing, heuristic scoring, recognition
error, selection, LLM retry/fan-out.  Machine floats are modelled as exact
rationals; external collaborators (phonemizers, the ASR model, the HTTP
backend) are modelled as explicit function parameters / outcome oracles.
-/

namespace Miotts

/-! ### Token parser (`token_parser.py`) -/

/-- The big-endian decimal digit-character list that Python `f"{token}"`
produces for a non-negative integer (no leading zeros, `"0"` for zero),
built from `Nat.digits`. -/
def natDecimalDigits (n : Nat) : List Char :=
  if n = 0 then ['0']
  else ((Nat.digits 10 n).reverse).map (fun d => Char.ofNat (48 + d))

/-- The rendered marker `<|s_N|>` for one token, as a character list.
Embeds the f-string inside `tokens_to_str`. -/
def renderToken (t : Nat) : List Char :=
  '<' :: '|' :: 's' :: '_' :: (natDecimalDigits t ++ ['|', '>'])

/-- `tokens_to_str`: concatenation of the markers, in order. -/
def tokens_to_str (tokens : List Nat) : List Char :=
  (tokens.map renderToken).flatten

/-- Decimal digit characters, the regex class `\d`. -/
def isDigitChar (c : Char) : Bool :=
  decide ('0' ≤ c) && decide (c ≤ '9')

/-- `int(...)` over a run of decimal digit characters (big-endian). -/
def digitsToNat (ds : List Char) : Nat :=
  ds.foldl (fun a c => 10 * a + (c.toNat - 48)) 0

/-- One attempt of the regex `<\|s_(\d+)\|>` at the head of the input: the
literal `<|s_`, a maximal (greedy) nonempty run of digits, then `|>`.
Backtracking over the greedy `\d+` is vacuous since a digit never equals
the bar character, so a take-while span is exact.  On success returns the
captured integer and the rest of the input after the match. -/
def matchMarker (l : List Char) : Option (Nat × List Char) :=
  match l with
  | c1 :: c2 :: c3 :: c4 :: r =>
    if c1 = '<' ∧ c2 = '|' ∧ c3 = 's' ∧ c4 = '_' then
      let ds := r.takeWhile isDigitChar
      match r.dropWhile isDigitChar with
      | d1 :: d2 :: rest' =>
        if ds ≠ [] ∧ d1 = '|' ∧ d2 = '>' then some (digitsToNat ds, rest')
        else none
      | _ => none
    else none
  | _ => none

theorem dropWhile_length_le {α : Type} (p : α → Bool) (l : List α) :
    (l.dropWhile p).length ≤ l.length := by
  induction l with
  | nil => simp
  | cons a l ih =>
    simp only [List.dropWhile]
    split
    · exact Nat.le_succ_of_le ih
    · simp

theorem matchMarker_length {l : List Char} {v : Nat} {rest : List Char}
    (h : matchMarker l = some (v, rest)) : rest.length < l.length := by
  match l with
  | [] => simp [matchMarker] at h
  | [c1] => simp [matchMarker] at h
  | [c1, c2] => simp [matchMarker] at h
  | [c1, c2, c3] => simp [matchMarker] at h
  | c1 :: c2 :: c3 :: c4 :: r =>
    simp only [matchMarker] at h
    by_cases hc : c1 = '<' ∧ c2 = '|' ∧ c3 = 's' ∧ c4 = '_'
    · rw [if_pos hc] at h
      have hd := dropWhile_length_le isDigitChar r
      match hr : r.dropWhile isDigitChar with
      | [] => rw [hr] at h; exact absurd h (by simp)
      | [d1] => rw [hr] at h; exact absurd h (by simp)
      | d1 :: d2 :: rest' =>
        rw [hr] at h
        dsimp only at h
        by_cases hg : r.takeWhile isDigitChar ≠ [] ∧ d1 = '|' ∧ d2 = '>'
        · rw [if_pos hg] at h
          have hrest : rest' = rest := by
            simpa using congrArg (fun o => (o.map Prod.snd).getD []) h
          rw [hr] at hd
          rw [← hrest]
          simp only [List.length_cons] at hd ⊢
          omega
        · rw [if_neg hg] at h; exact absurd h (by simp)
    · rw [if_neg hc] at h; exact absurd h (by simp)

/-- The scan loop of `re.findall` for `TOKEN_PATTERN`: try a match at the
current position; on success emit the captured integer and resume after the
match, otherwise advance one character. -/
def findTokens (l : List Char) : List Nat :=
  match h : matchMarker l with
  | some (v, rest) =>
    have : rest.length < l.length := matchMarker_length h
    v :: findTokens rest
  | none =>
    match l with
    | [] => []
    | _ :: cs => findTokens cs
termination_by l.length
decreasing_by
  · assumption
  · simp

/-- `parse_speech_tokens`: all regex captures as integers; error when none. -/
def parse_speech_tokens (text : List Char) : Except String (List Nat) :=
  let tokens := findTokens text
  if tokens = [] then .error "No speech tokens found in LLM output."
  else .ok tokens

theorem digit_char_toNat {d : Nat} (hd : d < 10) :
    (Char.ofNat (48 + d)).toNat = 48 + d := by
  interval_cases d <;> decide

theorem digit_char_isDigit {d : Nat} (hd : d < 10) :
    isDigitChar (Char.ofNat (48 + d)) = true := by
  interval_cases d <;> decide

theorem natDecimalDigits_ne_nil (n : Nat) : natDecimalDigits n ≠ [] := by
  unfold natDecimalDigits
  split
  · simp
  · next h =>
    simp only [ne_eq, List.map_eq_nil_iff, List.reverse_eq_nil_iff]
    exact Nat.digits_ne_nil_iff_ne_zero.mpr h

theorem natDecimalDigits_all_digits (n : Nat) :
    ∀ c ∈ natDecimalDigits n, isDigitChar c = true := by
  unfold natDecimalDigits
  split
  · intro c hc; simp at hc; subst hc; decide
  · intro c hc
    simp only [List.mem_map, List.mem_reverse] at hc
    obtain ⟨d, hd, rfl⟩ := hc
    exact digit_char_isDigit (Nat.digits_lt_base (by norm_num) hd)

theorem digitsToNat_foldl (L : List Nat) (hL : ∀ d ∈ L, d < 10) :
    ∀ a : Nat,
      ((L.reverse).map (fun d => Char.ofNat (48 + d))).foldl
        (fun a c => 10 * a + (c.toNat - 48)) a
      = a * 10 ^ L.length + Nat.ofDigits 10 L := by
  induction L with
  | nil => intro a; simp [Nat.ofDigits]
  | cons d L ih =>
    intro a
    have hd : d < 10 := hL d (by simp)
    have hL' : ∀ x ∈ L, x < 10 := fun x hx => hL x (by simp [hx])
    simp only [List.reverse_cons, List.map_append, List.map_cons, List.map_nil,
      List.foldl_append, List.foldl_cons, List.foldl_nil, ih hL']
    rw [digit_char_toNat hd]
    rw [Nat.ofDigits_cons]
    have : 48 + d - 48 = d := by omega
    rw [this]
    simp only [List.length_cons, pow_succ]
    ring

theorem digitsToNat_natDecimalDigits (n : Nat) :
    digitsToNat (natDecimalDigits n) = n := by
  unfold digitsToNat natDecimalDigits
  split
  · next h => subst h; decide
  · rw [digitsToNat_foldl _ (fun d hd => Nat.digits_lt_base (by norm_num) hd) 0]
    simp [Nat.ofDigits_digits]

theorem takeWhile_all_append {p : Char → Bool} :
    ∀ (ds : List Char), (∀ c ∈ ds, p c = true) → ∀ (y : Char) (rest : List Char),
      p y = false →
      (ds ++ y :: rest).takeWhile p = ds ∧ (ds ++ y :: rest).dropWhile p = y :: rest := by
  intro ds
  induction ds with
  | nil =>
    intro _ y rest hy
    simp [List.takeWhile, List.dropWhile, hy]
  | cons c cs ih =>
    intro hall y rest hy
    have hc : p c = true := hall c (by simp)
    have := ih (fun x hx => hall x (by simp [hx])) y rest hy
    simp [List.takeWhile, List.dropWhile, hc, this.1, this.2]

theorem matchMarker_renderToken (t : Nat) (cs : List Char) :
    matchMarker (renderToken t ++ cs) = some (t, cs) := by
  have hshape : renderToken t ++ cs
      = '<' :: '|' :: 's' :: '_' :: (natDecimalDigits t ++ ('|' :: '>' :: cs)) := by
    simp [renderToken]
  rw [hshape]
  have hsplit := takeWhile_all_append (p := isDigitChar) (natDecimalDigits t)
    (natDecimalDigits_all_digits t) '|' ('>' :: cs) (by decide)
  simp only [matchMarker, hsplit.1, hsplit.2]
  simp [natDecimalDigits_ne_nil t, digitsToNat_natDecimalDigits]

theorem findTokens_nil : findTokens [] = [] := by
  rw [findTokens]
  rfl

theorem findTokens_of_match {l : List Char} {v : Nat} {rest : List Char}
    (h : matchMarker l = some (v, rest)) :
    findTokens l = v :: findTokens rest := by
  rw [findTokens]
  split
  · next v' rest' heq =>
    rw [h] at heq
    injection heq with heq
    injection heq with h1 h2
    subst h1; subst h2; rfl
  · next heq => rw [h] at heq; exact absurd heq (by simp)

theorem findTokens_tokens_to_str (S : List Nat) :
    findTokens (tokens_to_str S) = S := by
  induction S with
  | nil => simpa [tokens_to_str] using findTokens_nil
  | cons t S ih =>
    have hs : tokens_to_str (t :: S) = renderToken t ++ tokens_to_str S := by
      simp [tokens_to_str]
    rw [hs, findTokens_of_match (matchMarker_renderToken t (tokens_to_str S)), ih]

/-! ### Repetition penalty (`best_of_n.py`: `_repeat_penalty`, `_ngram_repeat_ratio`) -/

/-- The n-grams enumerated by `_ngram_repeat_ratio`: `tuple(tokens[i:i+n])`
for `i in range(total)`. -/
def ngrams (tokens : List Int) (n total : Nat) : List (List Int) :=
  (List.range total).map (fun i => (tokens.drop i).take n)

/-- `_ngram_repeat_ratio`: `1 - unique/total` where `unique` is the number of
distinct n-grams (the size of the counting dict) and
`total = len(tokens) - n + 1`; `0` when `total <= 0`. -/
def ngram_repeat_ratio (tokens : List Int) (n : Nat) : ℚ :=
  let total : Int := (tokens.length : Int) - n + 1
  if total ≤ 0 then 0
  else
    let grams := ngrams tokens n total.toNat
    let unique := grams.dedup.length
    1 - (unique : ℚ) / (total.toNat : ℚ)

/-- `_repeat_penalty`: the maximum of the three n-gram repeat fractions for
`n in (2, 3, 4)` (Python `max` over the nonempty list of ratios). -/
def repeat_penalty (tokens : List Int) : ℚ :=
  match [ngram_repeat_ratio tokens 2, ngram_repeat_ratio tokens 3,
         ngram_repeat_ratio tokens 4] with
  | [] => 0
  | r :: rs => rs.foldl max r

/-! ### Silence penalty (`best_of_n.py`: `_silence_penalty`, `_silence_stats`,
`_longest_run`) -/

/-- `_longest_run`: length of the longest contiguous run of `true` flags,
the Python loop carried as a `(longest, current)` fold state; on a `true`
flag the incremented `current` replaces `longest` when it exceeds it. -/
def longest_run (flags : List Bool) : Nat :=
  (flags.foldl
    (fun (p : Nat × Nat) flag =>
      if flag then (if p.2 + 1 > p.1 then p.2 + 1 else p.1, p.2 + 1)
      else (p.1, 0))
    (0, 0)).1

/-- `_silence_stats`: the audio (taken absolute) is cut into 20 ms frames
(`frame_size = max(1, int(sample_rate * 0.02))`, modelled exactly as
`max 1 (sample_rate / 50)`); a frame is silent when its mean absolute
amplitude is below `1e-4`.  Returns (silent-frame fraction, longest silent
run in seconds); `(1, 0)` for empty audio, and the degenerate
shorter-than-one-frame branch mirrors the code. -/
def silence_stats (audio : List ℚ) (sample_rate : Nat) : ℚ × ℚ :=
  let audio := audio.map (fun x => |x|)
  if audio.length = 0 then (1, 0)
  else
    let frame_size := max 1 (sample_rate / 50)
    let frames := audio.length / frame_size
    if frames = 0 then
      let energy := audio.sum / (audio.length : ℚ)
      ((if energy < 1 / 10000 then 1 else 0), (audio.length : ℚ) / (sample_rate : ℚ))
    else
      let silent := (List.range frames).map
        (fun i => decide (((audio.drop (i * frame_size)).take frame_size).sum
          / (frame_size : ℚ) < 1 / 10000))
      let ratio := ((silent.filter id).length : ℚ) / (frames : ℚ)
      let longest := (longest_run silent : ℚ) * (frame_size : ℚ) / (sample_rate : ℚ)
      (ratio, longest)

/-- `_silence_penalty`: accumulates the excess-silence-fraction term and the
long-silent-run term (guards `max(1e-6, ...)` kept from the code). -/
def silence_penalty (audio : List ℚ) (sample_rate : Nat) : ℚ :=
  let stats := silence_stats audio sample_rate
  let ratio := stats.1
  let longest := stats.2
  let p : ℚ := 0
  let p := if ratio > 1/5 then p + (ratio - 1/5) / max (1/1000000) (1 - 1/5) else p
  let p := if longest > 2 then p + (longest - 2) / max (1/1000000) (2 : ℚ) else p
  p

/-! ### Language detection and length penalty (`best_of_n.py`:
`detect_language`, `resolve_language`, `_length_penalty`,
`_punctuation_bonus_sec`, `_phoneme_count`) -/

/-- `_is_ascii_alpha`. -/
def is_ascii_alpha (ch : Char) : Bool :=
  (decide ('a' ≤ ch) && decide (ch ≤ 'z')) || (decide ('A' ≤ ch) && decide (ch ≤ 'Z'))

/-- `_is_japanese_char`: hiragana, katakana, CJK unified (plus ext A) and
CJK compatibility ranges. -/
def is_japanese_char (ch : Char) : Bool :=
  let code := ch.toNat
  (0x3040 ≤ code && code ≤ 0x309F)
  || (0x30A0 ≤ code && code ≤ 0x30FF)
  || (0x4E00 ≤ code && code ≤ 0x9FFF)
  || (0x3400 ≤ code && code ≤ 0x4DBF)
  || (0xF900 ≤ code && code ≤ 0xFAFF)

/-- `detect_language` (Python `str.isspace` modelled as `Char.isWhitespace`). -/
def detect_language (text : List Char) : String :=
  let total := (text.filter (fun ch => !ch.isWhitespace)).length
  if total = 0 then "auto"
  else
    let ja_count := (text.filter is_japanese_char).length
    let en_count := (text.filter is_ascii_alpha).length
    let ja_ratio : ℚ := (ja_count : ℚ) / (total : ℚ)
    let en_ratio : ℚ := (en_count : ℚ) / (total : ℚ)
    if ja_ratio ≥ 1/5 then "ja"
    else if en_ratio ≥ 1/2 then "en"
    else "auto"

/-- `resolve_language`. -/
def resolve_language (text : List Char) (preferred : String) : String :=
  if preferred = "ja" ∨ preferred = "en" then preferred
  else detect_language text

/-- Major sentence punctuation, the regex class `[.!?。！？]`. -/
def isMajorPunct (c : Char) : Bool :=
  c = '.' || c = '!' || c = '?' || c = '。' || c = '！' || c = '？'

/-- Minor punctuation, the regex class `[、，,;；:]`. -/
def isMinorPunct (c : Char) : Bool :=
  c = '、' || c = '，' || c = ',' || c = ';' || c = '；' || c = ':'

/-- Count of non-overlapping matches of the regex `(…|\.\.\.)`, scanning left
to right with the one-character alternative tried first. -/
def countEllipsis : List Char → Nat
  | [] => 0
  | '…' :: rest => 1 + countEllipsis rest
  | '.' :: '.' :: '.' :: rest => 1 + countEllipsis rest
  | _ :: rest => countEllipsis rest

/-- Count of non-overlapping matches of the regex `(—|--)`. -/
def countDashPause : List Char → Nat
  | [] => 0
  | '—' :: rest => 1 + countDashPause rest
  | '-' :: '-' :: rest => 1 + countDashPause rest
  | _ :: rest => countDashPause rest

/-- Python `str.strip()` on a character list (whitespace from both ends). -/
def stripChars (l : List Char) : List Char :=
  ((l.dropWhile Char.isWhitespace).reverse.dropWhile Char.isWhitespace).reverse

/-- `_punctuation_bonus_sec`: 0.40 s per major punctuation mark (one fewer
when the stripped text ends in a major mark), 0.20 s per minor mark, 1.0 s
per ellipsis, 0.12 s per dash pause, capped at 10 s. -/
def punctuation_bonus_sec (text : List Char) : ℚ :=
  let t := stripChars text
  if t = [] then 0
  else
    let major := (t.filter isMajorPunct).length
    let minor := (t.filter isMinorPunct).length
    let major := if isMajorPunct (t.getLastD ' ') then major - 1 else major
    let ellipsis := countEllipsis t
    let dash_pause := countDashPause t
    let major_bonus : ℚ := major * (2/5)
    let minor_bonus : ℚ := minor * (1/5)
    let ellipsis_bonus : ℚ := ellipsis * 1
    let dash_bonus : ℚ := dash_pause * (3/25)
    min 10 (major_bonus + minor_bonus + ellipsis_bonus + dash_bonus)

/-- `_SPP_MINMAX` lookup with `other` as the default. -/
def spp_minmax (lang : String) : ℚ × ℚ :=
  if lang = "en" then (3/50, 3/25)
  else if lang = "ja" then (7/100, 3/20)
  else (7/100, 9/50)

/-- `_phoneme_count`: dispatches to the external g2p phonemizers, which are
modelled as the explicit oracle parameters `g2pEn` and `g2pJa`; any other
language falls back to `max(len(text), 1)`. -/
def phoneme_count (g2pEn g2pJa : List Char → Nat) (text : List Char)
    (lang : String) : Nat :=
  if lang = "en" then g2pEn text
  else if lang = "ja" then g2pJa text
  else max text.length 1

/-- `_length_penalty`: actual duration `len(tokens) / 25`, expected window
`[phonemes * min_spp + bonus, phonemes * max_spp + bonus]`, piecewise linear
penalty outside the window, with the code's degenerate-input guard. -/
def length_penalty (g2pEn g2pJa : List Char → Nat) (text : List Char)
    (tokens : List Int) (language : String) : ℚ :=
  let duration_sec : ℚ := (tokens.length : ℚ) / 25
  let lang := if language = "ja" ∨ language = "en" then language
              else detect_language text
  let phonemes := max (phoneme_count g2pEn g2pJa text lang) 1
  let mm := spp_minmax lang
  let bonus := punctuation_bonus_sec text
  let min_expected := (phonemes : ℚ) * mm.1 + bonus
  let max_expected := (phonemes : ℚ) * mm.2 + bonus
  if duration_sec ≤ 0 ∨ min_expected ≤ 0 then 0
  else if duration_sec < min_expected then (min_expected - duration_sec) / min_expected
  else if duration_sec > max_expected then (duration_sec - max_expected) / max_expected
  else 0

/-! ### Recognition error (`best_of_n.py`: `_normalize_for_wer`,
`_normalize_for_cer`, `_edit_distance`, `_wer`, `_cer`, `_asr_error`) -/

/-- Characters kept by the WER normalization, the complement of the regex
class `[^a-z0-9']`. -/
def werKeep (c : Char) : Bool :=
  (decide ('a' ≤ c) && decide (c ≤ 'z'))
  || (decide ('0' ≤ c) && decide (c ≤ '9'))
  || c = Char.ofNat 39

/-- The word splitter behind `_normalize_for_wer`: after lower-casing, the
regex pipeline (`[^a-z0-9']+ → " "`, `\s+ → " "`, `strip`, `split`) leaves
exactly the maximal runs of kept characters, in order. -/
def splitKeepRuns (p : Char → Bool) : List Char → List (List Char)
  | [] => []
  | c :: cs =>
    if p c then (c :: cs.takeWhile p) :: splitKeepRuns p (cs.dropWhile p)
    else splitKeepRuns p cs
termination_by l => l.length
decreasing_by
  · have := dropWhile_length_le p cs
    simp only [List.length_cons]
    omega
  · simp

/-- `_normalize_for_wer`: lower-case, collapse every non-`[a-z0-9']` run to
a separator, trim and split into words. -/
def normalize_for_wer (text : List Char) : List (List Char) :=
  splitKeepRuns werKeep (text.map Char.toLower)

/-- `_normalize_for_cer`: lower-case and keep only alphanumeric
(Python `str.isalnum`, modelled as `Char.isAlphanum`) or CJK characters. -/
def normalize_for_cer (text : List Char) : List Char :=
  (text.map Char.toLower).filter (fun ch => ch.isAlphanum || is_japanese_char ch)

/-- The value `_normalize_reference` produces: a word list for English, a
character string otherwise (the Python `str | list[str]` union). -/
inductive RefNorm where
  | wer (words : List (List Char))
  | cer (chars : List Char)
deriving DecidableEq

/-- `_normalize_reference`. -/
def normalize_reference (text : List Char) (language : String) : RefNorm :=
  if language = "en" then .wer (normalize_for_wer text)
  else .cer (normalize_for_cer text)

/-- Textbook Levenshtein distance with unit insert/delete/substitute costs:
the specification the DP implementation is checked against. -/
def lev {α : Type} [DecidableEq α] : List α → List α → Nat
  | [], ys => ys.length
  | x :: xs, [] => (x :: xs).length
  | x :: xs, y :: ys =>
    min (lev xs (y :: ys) + 1)
      (min (lev (x :: xs) ys + 1) (lev xs ys + (if x = y then 0 else 1)))
termination_by xs ys => xs.length + ys.length
decreasing_by
  · simp only [List.length_cons]; omega
  · simp only [List.length_cons]; omega
  · simp only [List.length_cons]; omega

/-- Inner loop of the `_edit_distance` DP: walks the remaining `seq_b`
together with the tail of the previous row, carrying `prev` (the diagonal
value) and the freshly written `dp[j-1]` (the left value), producing the new
row tail.  `dp[j] = min(dp[j]+1, dp[j-1]+1, prev+cost)`. -/
def dpStepAux {α : Type} [DecidableEq α] (a : α) :
    List α → List Nat → Nat → Nat → List Nat
  | [], _, _, _ => []
  | _ :: _, [], _, _ => []
  | b :: bs, p :: ps, diag, left =>
    let cost := if a = b then 0 else 1
    let q := min (p + 1) (min (left + 1) (diag + cost))
    q :: dpStepAux a bs ps p q

/-- One outer-loop iteration of the `_edit_distance` DP over element `a` of
`seq_a`: `dp[0] = i` is the old `dp[0] + 1`. -/
def dpStep {α : Type} [DecidableEq α] (a : α) (b : List α) (row : List Nat) :
    List Nat :=
  match row with
  | [] => []
  | p0 :: ps => (p0 + 1) :: dpStepAux a b ps p0 (p0 + 1)

/-- `_edit_distance`: single-row dynamic program, row initialised to
`list(range(len(seq_b) + 1))`, answer `dp[-1]`. -/
def edit_distance {α : Type} [DecidableEq α] (seq_a seq_b : List α) : Nat :=
  if seq_a.isEmpty then seq_b.length
  else if seq_b.isEmpty then seq_a.length
  else (seq_a.foldl (fun dp a => dpStep a seq_b dp)
    (List.range (seq_b.length + 1))).getLastD 0

/-- `_cer`. -/
def cer (ref hyp : List Char) : ℚ :=
  if ref = [] then (if hyp = [] then 0 else 1)
  else (edit_distance ref hyp : ℚ) / (max 1 ref.length : ℚ)

/-- `_wer`. -/
def wer (ref hyp : List (List Char)) : ℚ :=
  if ref = [] then (if hyp = [] then 0 else 1)
  else (edit_distance ref hyp : ℚ) / (max 1 ref.length : ℚ)

/-- `_asr_error`: WER for English over normalized words, CER otherwise,
with the Python `isinstance` guards on the union-typed reference. -/
def asr_error (ref_norm : RefNorm) (hyp_text : List Char) (language : String) : ℚ :=
  if language = "en" then
    wer (match ref_norm with | .wer ws => ws | .cer _ => []) (normalize_for_wer hyp_text)
  else
    cer (match ref_norm with | .cer cs => cs | .wer _ => []) (normalize_for_cer hyp_text)

/-! ### Scoring and selection (`best_of_n.py`: `BestOfNCandidate`,
`score_candidates`) -/

/-- `BestOfNCandidate` (the audio tensor is a 1-D rational waveform; the
wall-clock ASR timing is not modelled). -/
structure BestOfNCandidate where
  tokens : List Int
  audio : List ℚ
  asr_text : Option (List Char) := none
  asr_err : Option ℚ := none
  rep_pen : ℚ := 0
  len_pen : ℚ := 0
  sil_pen : ℚ := 0
  score : Option ℚ := none
deriving DecidableEq

/-- The fixed weights `_WEIGHT_LEN`, `_WEIGHT_SILENCE`, `_WEIGHT_REPEAT`,
`_HYBRID_HEUR_WEIGHT`. -/
def WEIGHT_LEN : ℚ := 2/5
def WEIGHT_SILENCE : ℚ := 2/5
def WEIGHT_REPEAT : ℚ := 1/5
def HYBRID_HEUR_WEIGHT : ℚ := 3/10

/-- `min(range(len(scores)), key=...)`: the first index attaining the
minimal key (Python `min` keeps the incumbent on ties). -/
def argminIdx (scores : List ℚ) : Nat :=
  (List.range scores.length).foldl
    (fun best i => if scores.getD i 0 < scores.getD best 0 then i else best) 0

/-- `zip(candidates, asr_texts, strict=False)` followed by the per-pair
field updates: candidates beyond the shorter list are left untouched. -/
def applyAsrTexts (ref_norm : RefNorm) (lang : String) :
    List BestOfNCandidate → List (List Char) → List BestOfNCandidate
  | [], _ => []
  | cs, [] => cs
  | c :: cs, t :: ts =>
    { c with asr_text := some t, asr_err := some (asr_error ref_norm t lang) }
      :: applyAsrTexts ref_norm lang cs ts

/-- `score_candidates`: heuristic penalties for every candidate, mandatory
batched ASR (error when the service is absent), per-candidate hybrid score
`asr + 0.3 * (0.4*len + 0.4*silence + 0.2*repeat)` with a missing ASR error
read as `1.0`, then stable arg-min selection keyed on `score or 0.0`.
External collaborators are parameters: `g2pEn`/`g2pJa` the phonemizers and
`asr_service` the batch transcriber.  Returns the updated pool and the
selected index (the wall-clock `asr_sec` is dropped). -/
def score_candidates (g2pEn g2pJa : List Char → Nat)
    (asr_service : Option (List (List ℚ) → List (List Char)))
    (text : List Char) (candidates : List BestOfNCandidate)
    (sample_rate : Nat) (language : String) :
    Except String (List BestOfNCandidate × Nat) :=
  if candidates = [] then .error "No candidates to score."
  else
    let resolved_lang := resolve_language text language
    let candidates := candidates.map (fun c =>
      { c with
        rep_pen := repeat_penalty c.tokens
        len_pen := length_penalty g2pEn g2pJa text c.tokens resolved_lang
        sil_pen := silence_penalty c.audio sample_rate })
    match asr_service with
    | none => .error "ASR is required but not available."
    | some transcribe_batch =>
      let asr_texts := transcribe_batch (candidates.map (·.audio))
      let ref_norm := normalize_reference text resolved_lang
      let candidates := applyAsrTexts ref_norm resolved_lang candidates asr_texts
      let candidates := candidates.map (fun c =>
        let heuristic := WEIGHT_LEN * c.len_pen + WEIGHT_SILENCE * c.sil_pen
          + WEIGHT_REPEAT * c.rep_pen
        let asr_score := c.asr_err.getD 1
        { c with score := some (asr_score + HYBRID_HEUR_WEIGHT * heuristic) })
      let best_idx := argminIdx (candidates.map (fun c => c.score.getD 0))
      .ok (candidates, best_idx)

/-! ### LLM client retry (`llm_client.py`: `_post_with_retry`) -/

/-- `DEFAULT_MAX_RETRIES` and `DEFAULT_RETRY_DELAY`. -/
def DEFAULT_MAX_RETRIES : Nat := 3
def DEFAULT_RETRY_DELAY : ℚ := 1/2

/-- `RETRYABLE_STATUS_CODES`. -/
def RETRYABLE_STATUS_CODES : List Nat := [502, 503, 504, 429]

/-- Body of an HTTP response: parseable content, or one that makes
`response.json()` / `_extract_content` raise (`ValueError`). -/
inductive RespBody where
  | content (s : String)
  | malformed
deriving DecidableEq

/-- Outcome of one `client.post` call: an HTTP response with a status code,
a timeout, or a connection error. -/
inductive PostOutcome where
  | status (code : Nat) (body : RespBody)
  | timeout
  | connectError
deriving DecidableEq

/-- The exceptions `_post_with_retry` can raise. -/
inductive LLMError where
  | httpStatus (code : Nat)
  | timeoutExc
  | connectExc
  | valueError
  | allRetriesFailed
deriving DecidableEq

/-- Observable trace of `_post_with_retry`: the returned content or raised
error, the number of attempts issued, and the `asyncio.sleep` delays in
order. -/
structure RetryTrace where
  result : Except LLMError String
  attempts : Nat
  delays : List ℚ

/-- The `for attempt in range(max_retries)` loop of `_post_with_retry`; the
network is the oracle `resp`, giving the outcome of the k-th post.  A
retryable status on a non-final attempt sleeps and continues; on the final
attempt it falls through to `raise_for_status()` (all retryable codes are
≥ 400, so that raises).  Any other status ≥ 400 raises immediately, as does
a malformed body; timeout and connection errors are caught, remembered as
`last_exc` and retried (sleeping only on non-final attempts).  After the
loop the remembered error, or a bare `RuntimeError`, is raised. -/
def retryLoop (max_retries : Nat) (retry_delay : ℚ) (resp : Nat → PostOutcome) :
    Nat → Option LLMError → List ℚ → RetryTrace
  | attempt, last_exc, delays =>
    if _h : attempt < max_retries then
      match resp attempt with
      | .status code body =>
        if code ∈ RETRYABLE_STATUS_CODES then
          if attempt < max_retries - 1 then
            retryLoop max_retries retry_delay resp (attempt + 1) last_exc
              (delays ++ [retry_delay * 2 ^ attempt])
          else ⟨.error (.httpStatus code), attempt + 1, delays⟩
        else if 400 ≤ code then ⟨.error (.httpStatus code), attempt + 1, delays⟩
        else
          match body with
          | .content s => ⟨.ok s, attempt + 1, delays⟩
          | .malformed => ⟨.error .valueError, attempt + 1, delays⟩
      | .timeout =>
        if attempt < max_retries - 1 then
          retryLoop max_retries retry_delay resp (attempt + 1) (some .timeoutExc)
            (delays ++ [retry_delay * 2 ^ attempt])
        else
          retryLoop max_retries retry_delay resp (attempt + 1) (some .timeoutExc) delays
      | .connectError =>
        if attempt < max_retries - 1 then
          retryLoop max_retries retry_delay resp (attempt + 1) (some .connectExc)
            (delays ++ [retry_delay * 2 ^ attempt])
        else
          retryLoop max_retries retry_delay resp (attempt + 1) (some .connectExc) delays
    else
      ⟨.error ((last_exc).getD .allRetriesFailed), attempt, delays⟩
termination_by attempt _ _ => max_retries - attempt
decreasing_by all_goals omega

/-- `_post_with_retry` from a fresh state. -/
def post_with_retry (max_retries : Nat) (retry_delay : ℚ)
    (resp : Nat → PostOutcome) : RetryTrace :=
  retryLoop max_retries retry_delay resp 0 none []

/-! ### Candidate fan-out (`api.py`: `_fetch_llm_candidates`) -/

/-- How `_fetch_llm_candidates` can fail: a single attempt's exception
propagated directly (the `n <= 1` path), or the aggregate `RuntimeError`
when every concurrent attempt failed. -/
inductive FetchError (E : Type) where
  | direct (e : E)
  | allFailed
deriving DecidableEq

/-- `_fetch_llm_candidates`: the chat backend is the oracle `attempt`,
giving the outcome of the k-th issued request.  For `n <= 1` a single
request is issued and its failure propagates; otherwise all `n` requests
are gathered with exceptions captured, failures are dropped, and the batch
fails only when no text survives. -/
def fetch_llm_candidates {E : Type} (n : Nat)
    (attempt : Nat → Except E String) : Except (FetchError E) (List String) :=
  if n ≤ 1 then
    match attempt 0 with
    | .ok text => .ok [text]
    | .error e => .error (.direct e)
  else
    let results := (List.range n).map attempt
    let texts := results.filterMap (fun r => r.toOption)
    if texts = [] then .error .allFailed
    else .ok texts

/-! ## Claims -/

/-- **C2** (corrected, counterexample): the round-trip does *not* hold for
the empty sequence — `parse_speech_tokens` raises the no-tokens error on
the text rendered from `[]`, instead of returning `[]`. -/
theorem C2_empty_counterexample :
    parse_speech_tokens (tokens_to_str ([] : List Nat))
      = .error "No speech tokens found in LLM output." := by
  have h : findTokens (tokens_to_str ([] : List Nat)) = [] :=
    findTokens_tokens_to_str []
  simp [parse_speech_tokens, h]

/-- **C2** (amended): for every *non-empty* sequence `S` of non-negative
integers, parsing the text rendered from `S` succeeds and yields exactly
`S`: `parse_speech_tokens (tokens_to_str S) = ok S`.  (On the empty
sequence the parser raises its no-tokens error instead.) -/
theorem C2_roundtrip (S : List Nat) (hS : S ≠ []) :
    parse_speech_tokens (tokens_to_str S) = .ok S := by
  have h : findTokens (tokens_to_str S) = S := findTokens_tokens_to_str S
  simp [parse_speech_tokens, h, hS]

/-- **C2** witness: the round-trip theorem applied at `[5, 0, 123]`. -/
theorem C2_roundtrip_witness :
    parse_speech_tokens (tokens_to_str [5, 0, 123]) = .ok [5, 0, 123] :=
  C2_roundtrip [5, 0, 123] (by simp)

/-- The spec's reading of one n-gram term: `1 − (distinct n-grams /
n-gram positions)`, with a sequence shorter than `n` contributing `0`. -/
def spec_ngram_term (tokens : List Int) (n : Nat) : ℚ :=
  if tokens.length < n then 0
  else
    let total := tokens.length - n + 1
    1 - ((ngrams tokens n total).dedup.length : ℚ) / (total : ℚ)

theorem ngram_repeat_ratio_eq_spec (tokens : List Int) (n : Nat) :
    ngram_repeat_ratio tokens n = spec_ngram_term tokens n := by
  simp only [ngram_repeat_ratio, spec_ngram_term]
  by_cases h : tokens.length < n
  · rw [if_pos (by omega), if_pos h]
  · rw [if_neg (by omega), if_neg h]
    have htn : ((tokens.length : Int) - n + 1).toNat = tokens.length - n + 1 := by omega
    rw [htn]

theorem ngrams_nodup {tokens : List Int} (hnd : tokens.Nodup) {n : Nat}
    (hn : 1 ≤ n) (hlen : n ≤ tokens.length) :
    (ngrams tokens n (tokens.length - n + 1)).Nodup := by
  unfold ngrams
  apply List.Nodup.map_on _ (List.nodup_range _)
  intro i hi j hj hfij
  simp only [List.mem_range] at hi hj
  have hget : ∀ k, k < tokens.length - n + 1 →
      ((tokens.drop k).take n).head? = tokens[k]? := by
    intro k hk
    rw [List.head?_take, if_neg (by omega)]
    exact List.head?_drop tokens k
  have hq : tokens[i]? = tokens[j]? := by
    rw [← hget i hi, ← hget j hj, hfij]
  have hi' : i < tokens.length := by omega
  have hj' : j < tokens.length := by omega
  rw [List.getElem?_eq_getElem hi', List.getElem?_eq_getElem hj'] at hq
  have := List.nodup_iff_injective_get.mp hnd
    (show tokens.get ⟨i, hi'⟩ = tokens.get ⟨j, hj'⟩ by simpa using hq)
  exact congrArg Fin.val this

theorem ngram_repeat_ratio_nonneg (tokens : List Int) (n : Nat) :
    0 ≤ ngram_repeat_ratio tokens n := by
  simp only [ngram_repeat_ratio]
  split
  · exact le_refl 0
  · next h =>
    have htotal : 0 < ((tokens.length : Int) - n + 1).toNat := by omega
    set total := ((tokens.length : Int) - n + 1).toNat with hT
    have hle : (ngrams tokens n total).dedup.length ≤ total := by
      calc (ngrams tokens n total).dedup.length
          ≤ (ngrams tokens n total).length := (List.dedup_sublist _).length_le
        _ = total := by simp [ngrams]
    have h1 : ((ngrams tokens n total).dedup.length : ℚ) / (total : ℚ) ≤ 1 := by
      rw [div_le_one (by exact_mod_cast htotal)]
      exact_mod_cast hle
    linarith

theorem ngram_repeat_ratio_lt_one (tokens : List Int) (n : Nat) :
    ngram_repeat_ratio tokens n < 1 := by
  simp only [ngram_repeat_ratio]
  split
  · norm_num
  · next h =>
    have htotal : 0 < ((tokens.length : Int) - n + 1).toNat := by omega
    set total := ((tokens.length : Int) - n + 1).toNat with hT
    have hne : ngrams tokens n total ≠ [] := by
      simp only [ngrams, ne_eq, List.map_eq_nil_iff, List.range_eq_nil]
      omega
    have hpos : 0 < (ngrams tokens n total).dedup.length := by
      rw [List.length_pos]
      simpa [List.dedup_eq_nil] using hne
    have h1 : 0 < ((ngrams tokens n total).dedup.length : ℚ) / (total : ℚ) := by
      apply div_pos <;> exact_mod_cast ‹_›
    linarith

theorem ngram_repeat_ratio_short (tokens : List Int) (n : Nat)
    (h : tokens.length < n) : ngram_repeat_ratio tokens n = 0 := by
  simp only [ngram_repeat_ratio]
  rw [if_pos (by omega)]

theorem repeat_penalty_eq_max (tokens : List Int) :
    repeat_penalty tokens
      = max (ngram_repeat_ratio tokens 2)
          (max (ngram_repeat_ratio tokens 3) (ngram_repeat_ratio tokens 4)) := by
  simp only [repeat_penalty, List.foldl_cons, List.foldl_nil]
  rw [max_assoc]

theorem repeat_penalty_nodup_zero (tokens : List Int)
    (hlen : 4 ≤ tokens.length) (hnd : tokens.Nodup) :
    repeat_penalty tokens = 0 := by
  rw [repeat_penalty_eq_max]
  have hratio : ∀ n, 1 ≤ n → n ≤ tokens.length → ngram_repeat_ratio tokens n = 0 := by
    intro n h1 h2
    simp only [ngram_repeat_ratio]
    rw [if_neg (by omega)]
    have htn : ((tokens.length : Int) - n + 1).toNat = tokens.length - n + 1 := by omega
    rw [htn]
    have hnodup := ngrams_nodup hnd h1 h2
    rw [List.dedup_eq_self.mpr hnodup]
    have hlen' : (ngrams tokens n (tokens.length - n + 1)).length
        = tokens.length - n + 1 := by simp [ngrams]
    rw [hlen']
    rw [div_self (Nat.cast_ne_zero.mpr (by omega))]
    ring
  rw [hratio 2 (by omega) (by omega), hratio 3 (by omega) (by omega),
    hratio 4 (by omega) (by omega)]
  simp

/-- **C6** (confirmed): the repetition penalty is the maximum over
`n ∈ {2,3,4}` of `1 − distinct n-grams / n-gram positions` with
shorter-than-`n` sequences contributing `0` for that `n`; it is `0` for any
strictly non-repeating (duplicate-free) sequence of length ≥ 4; and the
all-equal sequence `[1,1,1,1,1,1]` scores strictly higher than the
duplicate-free `[1,2,3,4,5,6]`. -/
theorem C6_repeat_penalty_spec :
    (∀ tokens : List Int,
      repeat_penalty tokens
        = max (spec_ngram_term tokens 2)
            (max (spec_ngram_term tokens 3) (spec_ngram_term tokens 4)))
    ∧ (∀ tokens : List Int, 4 ≤ tokens.length → tokens.Nodup →
        repeat_penalty tokens = 0)
    ∧ repeat_penalty [1, 1, 1, 1, 1, 1] > repeat_penalty [1, 2, 3, 4, 5, 6] := by
  refine ⟨fun tokens => ?_, fun tokens h4 hnd => repeat_penalty_nodup_zero tokens h4 hnd, ?_⟩
  · rw [repeat_penalty_eq_max, ngram_repeat_ratio_eq_spec, ngram_repeat_ratio_eq_spec,
      ngram_repeat_ratio_eq_spec]
  · have hz : repeat_penalty [1, 2, 3, 4, 5, 6] = 0 :=
      repeat_penalty_nodup_zero _ (by simp) (by decide)
    have hval : ngram_repeat_ratio [1, 1, 1, 1, 1, 1] 2
        = 1 - ((ngrams [1, 1, 1, 1, 1, 1] 2 5).dedup.length : ℚ) / (5 : ℚ) := by
      simp only [ngram_repeat_ratio]
      rw [if_neg (by simp)]
      rw [show Int.toNat ((([1, 1, 1, 1, 1, 1] : List Int).length : Int) - (2:Nat) + 1) = 5
        from rfl]
      norm_num
    have hded : (ngrams [1, 1, 1, 1, 1, 1] 2 5).dedup.length = 1 := by decide
    have h2 : ngram_repeat_ratio [1, 1, 1, 1, 1, 1] 2 = 4/5 := by
      rw [hval, hded]
      norm_num
    have hge : repeat_penalty [1, 1, 1, 1, 1, 1]
        ≥ ngram_repeat_ratio [1, 1, 1, 1, 1, 1] 2 := by
      rw [repeat_penalty_eq_max]
      exact le_max_left _ _
    rw [hz]
    rw [h2] at hge
    linarith

/-- **C6** witness: the theorem applied at the duplicate-free sequence
`[1,2,3,4,5]` of length 5 (its Nodup hypothesis discharged by `decide`),
giving penalty `0` together with the concrete strict comparison. -/
theorem C6_repeat_penalty_spec_witness :
    repeat_penalty [1, 2, 3, 4, 5] = 0
      ∧ repeat_penalty [1, 1, 1, 1, 1, 1] > repeat_penalty [1, 2, 3, 4, 5, 6] :=
  ⟨C6_repeat_penalty_spec.2.1 [1, 2, 3, 4, 5] (by decide) (by decide),
    C6_repeat_penalty_spec.2.2⟩

/-- **C10** (confirmed): for every token sequence the repetition penalty
lies in `[0, 1)`: it is never negative, is exactly `0` when the sequence is
shorter than 2 tokens, and is strictly below `1` always (at least one
n-gram is distinct), so the signal never reaches the nominal region near 1. -/
theorem C10_repeat_penalty_range (tokens : List Int) :
    0 ≤ repeat_penalty tokens ∧ repeat_penalty tokens < 1
      ∧ (tokens.length < 2 → repeat_penalty tokens = 0) := by
  rw [repeat_penalty_eq_max]
  refine ⟨?_, ?_, ?_⟩
  · exact le_max_of_le_left (ngram_repeat_ratio_nonneg tokens 2)
  · exact max_lt (ngram_repeat_ratio_lt_one tokens 2)
      (max_lt (ngram_repeat_ratio_lt_one tokens 3) (ngram_repeat_ratio_lt_one tokens 4))
  · intro h2
    rw [ngram_repeat_ratio_short tokens 2 (by omega),
      ngram_repeat_ratio_short tokens 3 (by omega),
      ngram_repeat_ratio_short tokens 4 (by omega)]
    simp

/-- **C10** witness: the range theorem applied at the one-token sequence
`[7]`, whose length is below 2. -/
theorem C10_repeat_penalty_range_witness :
    0 ≤ repeat_penalty [7] ∧ repeat_penalty [7] < 1 ∧ repeat_penalty [7] = 0 :=
  ⟨(C10_repeat_penalty_range [7]).1, (C10_repeat_penalty_range [7]).2.1,
    (C10_repeat_penalty_range [7]).2.2 (by decide)⟩

theorem silence_penalty_eq (audio : List ℚ) (sr : Nat) :
    silence_penalty audio sr
      = max 0 (((silence_stats audio sr).1 - 1/5) / (1 - 1/5))
        + max 0 (((silence_stats audio sr).2 - 2) / 2) := by
  simp only [silence_penalty]
  set s := silence_stats audio sr with hs
  rw [show max (1/1000000 : ℚ) (1 - 1/5) = 1 - 1/5 by norm_num,
    show max (1/1000000 : ℚ) (2 : ℚ) = 2 by norm_num]
  by_cases hr : s.1 > 1/5
  · rw [if_pos hr]
    have h1 : (0:ℚ) ≤ (s.1 - 1/5) / (1 - 1/5) := by
      apply div_nonneg <;> linarith
    by_cases hl : s.2 > 2
    · rw [if_pos hl, max_eq_right h1,
        max_eq_right (by apply div_nonneg <;> linarith : (0:ℚ) ≤ (s.2 - 2) / 2)]
      ring
    · rw [if_neg hl, max_eq_right h1,
        max_eq_left (by
          apply div_nonpos_of_nonpos_of_nonneg <;> [linarith; norm_num] :
          (s.2 - 2) / 2 ≤ (0:ℚ))]
      ring
  · rw [if_neg hr]
    have h1 : (s.1 - 1/5) / (1 - 1/5) ≤ (0:ℚ) := by
      apply div_nonpos_of_nonpos_of_nonneg <;> [linarith; norm_num]
    by_cases hl : s.2 > 2
    · rw [if_pos hl, max_eq_left h1,
        max_eq_right (by apply div_nonneg <;> linarith : (0:ℚ) ≤ (s.2 - 2) / 2)]
    · rw [if_neg hl, max_eq_left h1,
        max_eq_left (by
          apply div_nonpos_of_nonpos_of_nonneg <;> [linarith; norm_num] :
          (s.2 - 2) / 2 ≤ (0:ℚ))]
      ring

theorem silence_stats_nil (sr : Nat) : silence_stats [] sr = (1, 0) := by
  simp [silence_stats]

theorem longest_run_all_false {flags : List Bool}
    (h : ∀ f ∈ flags, f = false) : longest_run flags = 0 := by
  unfold longest_run
  suffices hgen : ∀ (fl : List Bool), (∀ f ∈ fl, f = false) → ∀ p : Nat × Nat,
      (fl.foldl (fun (p : Nat × Nat) flag =>
        if flag then (if p.2 + 1 > p.1 then p.2 + 1 else p.1, p.2 + 1)
        else (p.1, 0)) p).1 = p.1 by
    exact hgen flags h (0, 0)
  intro fl
  induction fl with
  | nil => intro _ p; rfl
  | cons f fs ih =>
    intro hall p
    have hf : f = false := hall f (by simp)
    subst hf
    simp only [List.foldl_cons]
    rw [if_neg (by simp : ¬ (false = true))]
    exact ih (fun g hg => hall g (by simp [hg])) (p.1, 0)

theorem frame_size_le_sr {sr : Nat} (hsr : 0 < sr) : max 1 (sr / 50) ≤ sr := by
  have := Nat.div_le_self sr 50
  omega

theorem silence_stats_all_zero {audio : List ℚ} {sr : Nat} (hsr : 0 < sr)
    (hz : ∀ x ∈ audio, x = (0:ℚ)) (hlen : 2 * sr < audio.length) :
    (silence_stats audio sr).1 = 1 := by
  simp only [silence_stats]
  have hmap : audio.map (fun x => |x|) = audio.map (fun _ => (0:ℚ)) := by
    apply List.map_congr_left
    intro x hx
    rw [hz x hx]; simp
  rw [hmap]
  have hL : (audio.map (fun _ => (0:ℚ))).length = audio.length := by simp
  rw [if_neg (by omega)]
  set fs := max 1 (sr / 50) with hfs
  have hfs1 : 1 ≤ fs := le_max_left _ _
  have hfssr : fs ≤ sr := frame_size_le_sr hsr
  have hframes : 0 < (audio.map (fun _ => (0:ℚ))).length / fs := by
    rw [hL]
    exact Nat.div_pos (by omega) (by omega)
  rw [if_neg (by omega)]
  have hsil : ∀ i, (((audio.map (fun _ => (0:ℚ))).drop (i * fs)).take fs).sum
      / (fs : ℚ) < 1 / 10000 := by
    intro i
    have hsum : (((audio.map (fun _ => (0:ℚ))).drop (i * fs)).take fs).sum = 0 := by
      apply List.sum_eq_zero
      intro x hx
      have hx1 := List.mem_of_mem_take hx
      have hx2 := List.mem_of_mem_drop hx1
      obtain ⟨a, -, ha⟩ := List.mem_map.mp hx2
      exact ha.symm
    rw [hsum, zero_div]
    norm_num
  have hmapflags : (List.range ((audio.map (fun _ => (0:ℚ))).length / fs)).map
      (fun i => decide ((((audio.map (fun _ => (0:ℚ))).drop (i * fs)).take fs).sum
        / (fs : ℚ) < 1 / 10000))
      = List.replicate ((audio.map (fun _ => (0:ℚ))).length / fs) true := by
    rw [List.eq_replicate_iff]
    constructor
    · simp
    · intro b hb
      simp only [List.mem_map, List.mem_range] at hb
      obtain ⟨i, -, rfl⟩ := hb
      simp only [decide_eq_true_eq]
      exact hsil i
  rw [hmapflags]
  have hfilter : ((List.replicate ((audio.map (fun _ => (0:ℚ))).length / fs) true).filter
      id).length = (audio.map (fun _ => (0:ℚ))).length / fs := by
    rw [List.filter_replicate]
    simp
  rw [hfilter]
  have hne : (((audio.map (fun _ => (0:ℚ))).length / fs : Nat) : ℚ) ≠ 0 :=
    Nat.cast_ne_zero.mpr (by omega)
  exact div_self hne

theorem silence_stats_ratio_zero_longest {audio : List ℚ} {sr : Nat}
    (hsr : 0 < sr) (h : (silence_stats audio sr).1 = 0) :
    (silence_stats audio sr).2 ≤ 2 := by
  simp only [silence_stats] at h ⊢
  by_cases h0 : (audio.map (fun x => |x|)).length = 0
  · rw [if_pos h0] at h
    norm_num at h
  · rw [if_neg h0] at h ⊢
    by_cases hf : (audio.map (fun x => |x|)).length / max 1 (sr / 50) = 0
    · rw [if_pos hf] at h ⊢
      dsimp only at h ⊢
      have hfs1 : 1 ≤ max 1 (sr / 50) := le_max_left _ _
      have hlen : (audio.map (fun x => |x|)).length < max 1 (sr / 50) := by
        by_contra hge
        push_neg at hge
        have := Nat.div_pos hge (by omega)
        omega
      have hlsr : (audio.map (fun x => |x|)).length ≤ sr :=
        le_trans (le_of_lt hlen) (frame_size_le_sr hsr)
      have hle1 : ((audio.map (fun x => |x|)).length : ℚ) / (sr : ℚ) ≤ 1 := by
        rw [div_le_one (by exact_mod_cast hsr)]
        exact_mod_cast hlsr
      linarith
    · rw [if_neg hf] at h ⊢
      dsimp only at h ⊢
      rcases div_eq_zero_iff.mp h with hc | hc
      · have hcount := Nat.cast_eq_zero.mp hc
        have hnil := List.length_eq_zero.mp hcount
        rw [longest_run_all_false
          (fun b hb => by simpa using List.filter_eq_nil_iff.mp hnil b hb)]
        norm_num
      · exact absurd (Nat.cast_eq_zero.mp hc) hf

theorem silence_penalty_all_zero_ge_one {audio : List ℚ} {sr : Nat} (hsr : 0 < sr)
    (hz : ∀ x ∈ audio, x = (0:ℚ)) (hlen : 2 * sr < audio.length) :
    1 ≤ silence_penalty audio sr := by
  rw [silence_penalty_eq]
  rw [silence_stats_all_zero hsr hz hlen]
  rw [show max (0:ℚ) ((1 - 1/5) / (1 - 1/5)) = 1 by norm_num]
  have h0 := le_max_left (0:ℚ) (((silence_stats audio sr).2 - 2) / 2)
  linarith

theorem silence_penalty_ratio_zero {audio : List ℚ} {sr : Nat} (hsr : 0 < sr)
    (h : (silence_stats audio sr).1 = 0) : silence_penalty audio sr = 0 := by
  rw [silence_penalty_eq, h]
  have h2 := silence_stats_ratio_zero_longest hsr h
  rw [max_eq_left (by norm_num : ((0:ℚ) - 1/5) / (1 - 1/5) ≤ 0),
    max_eq_left (by
      apply div_nonpos_of_nonpos_of_nonneg <;> [linarith; norm_num] :
      ((silence_stats audio sr).2 - 2) / 2 ≤ (0:ℚ))]
  norm_num

/-- **C7** (confirmed): the silence penalty equals the sum of the two
independent clamped terms `max 0 ((ratio − 0.2)/(1 − 0.2))` and
`max 0 ((longest − 2)/2)` over the 20 ms-frame silence statistics; a
zero-length waveform scores exactly 1; and an all-zero waveform longer than
2 seconds scores strictly more than any waveform with no silent frames
(silent-frame fraction 0). -/
theorem C7_silence_penalty :
    (∀ (audio : List ℚ) (sr : Nat),
      silence_penalty audio sr
        = max 0 (((silence_stats audio sr).1 - 1/5) / (1 - 1/5))
          + max 0 (((silence_stats audio sr).2 - 2) / 2))
    ∧ (∀ sr : Nat, silence_penalty [] sr = 1)
    ∧ (∀ (allzero noisy : List ℚ) (sr : Nat), 0 < sr →
        (∀ x ∈ allzero, x = (0:ℚ)) → 2 * sr < allzero.length →
        (silence_stats noisy sr).1 = 0 →
        silence_penalty noisy sr < silence_penalty allzero sr) := by
  refine ⟨silence_penalty_eq, ?_, ?_⟩
  · intro sr
    rw [silence_penalty_eq, silence_stats_nil]
    norm_num
  · intro allzero noisy sr hsr hz hlen hnoisy
    have h1 := silence_penalty_all_zero_ge_one hsr hz hlen
    have h2 := silence_penalty_ratio_zero hsr hnoisy
    linarith

/-- **C7** witness: the theorem applied at sample rate 1 with the all-zero
waveform `[0,0,0]` (3 samples > 2 s) against the loud one-sample waveform
`[1/2]` (no silent frames). -/
theorem C7_silence_penalty_witness :
    silence_penalty [0, 0, 0] 1
      = max 0 (((silence_stats [0, 0, 0] 1).1 - 1/5) / (1 - 1/5))
        + max 0 (((silence_stats [0, 0, 0] 1).2 - 2) / 2)
    ∧ silence_penalty [] 1 = 1
    ∧ silence_penalty [(1:ℚ)/2] 1 < silence_penalty [0, 0, 0] 1 := by
  refine ⟨C7_silence_penalty.1 [0, 0, 0] 1, C7_silence_penalty.2.1 1, ?_⟩
  apply C7_silence_penalty.2.2 [0, 0, 0] [(1:ℚ)/2] 1 (by norm_num)
    (by intro x hx; simpa using hx) (by norm_num)
  simp only [silence_stats]
  norm_num
  rw [show |(1:ℚ)/2| = 1/2 from abs_of_nonneg (by norm_num)]
  norm_num

theorem punctuation_bonus_nonneg (text : List Char) :
    0 ≤ punctuation_bonus_sec text := by
  simp only [punctuation_bonus_sec]
  split
  · exact le_refl 0
  · apply le_min (by norm_num)
    positivity

theorem punctuation_bonus_le_ten (text : List Char) :
    punctuation_bonus_sec text ≤ 10 := by
  simp only [punctuation_bonus_sec]
  split
  · norm_num
  · exact min_le_left _ _

theorem spp_minmax_pos (lang : String) :
    0 < (spp_minmax lang).1 ∧ 0 < (spp_minmax lang).2 := by
  unfold spp_minmax
  split_ifs <;> constructor <;> norm_num

/-- **C8** (confirmed): for every non-empty token sequence the length
penalty is exactly the piecewise function of the actual duration
`tokenCount / 25` against the expected window
`[phonemes*minSpp + bonus, phonemes*maxSpp + bonus]`: `(lo − actual)/lo`
below the window, `(actual − hi)/hi` above, `0` inside (the code's
degenerate guard can never fire); and the punctuation pause bonus is always
in `[0, 10]` seconds. -/
theorem C8_length_penalty (g2pEn g2pJa : List Char → Nat) (text : List Char)
    (tokens : List Int) (language : String) (htok : tokens ≠ []) :
    (length_penalty g2pEn g2pJa text tokens language
      = (let actual : ℚ := (tokens.length : ℚ) / 25
         let lang := if language = "ja" ∨ language = "en" then language
                     else detect_language text
         let phonemes := max (phoneme_count g2pEn g2pJa text lang) 1
         let lo := (phonemes : ℚ) * (spp_minmax lang).1 + punctuation_bonus_sec text
         let hi := (phonemes : ℚ) * (spp_minmax lang).2 + punctuation_bonus_sec text
         if actual < lo then (lo - actual) / lo
         else if actual > hi then (actual - hi) / hi
         else 0))
    ∧ 0 ≤ punctuation_bonus_sec text ∧ punctuation_bonus_sec text ≤ 10 := by
  refine ⟨?_, punctuation_bonus_nonneg text, punctuation_bonus_le_ten text⟩
  simp only [length_penalty]
  rw [if_neg ?hguard]
  case hguard =>
    push_neg
    set L := if language = "ja" ∨ language = "en" then language
      else detect_language text with hL
    constructor
    · apply div_pos _ (by norm_num)
      have := List.length_pos.mpr htok
      exact_mod_cast this
    · have hphn : 0 < max (phoneme_count g2pEn g2pJa text L) 1 := by omega
      have hspp := (spp_minmax_pos L).1
      have hbonus := punctuation_bonus_nonneg text
      have hmul : 0 < ((max (phoneme_count g2pEn g2pJa text L) 1 : Nat) : ℚ)
          * (spp_minmax L).1 := mul_pos (by exact_mod_cast hphn) hspp
      linarith

/-- **C8** witness: the theorem applied with constant phonemizer oracles at
a concrete text and the one-token sequence `[3]`. -/
theorem C8_length_penalty_witness :
    (length_penalty (fun _ => 10) (fun _ => 10) ['h', 'i'] [3] "en"
      = (let actual : ℚ := (([3] : List Int).length : ℚ) / 25
         let lang := if ("en" : String) = "ja" ∨ ("en" : String) = "en" then "en"
                     else detect_language ['h', 'i']
         let phonemes := max (phoneme_count (fun _ => 10) (fun _ => 10) ['h', 'i'] lang) 1
         let lo := (phonemes : ℚ) * (spp_minmax lang).1 + punctuation_bonus_sec ['h', 'i']
         let hi := (phonemes : ℚ) * (spp_minmax lang).2 + punctuation_bonus_sec ['h', 'i']
         if actual < lo then (lo - actual) / lo
         else if actual > hi then (actual - hi) / hi
         else 0))
    ∧ 0 ≤ punctuation_bonus_sec ['h', 'i'] ∧ punctuation_bonus_sec ['h', 'i'] ≤ 10 :=
  C8_length_penalty (fun _ => 10) (fun _ => 10) ['h', 'i'] [3] "en" (by simp)

section EditDistance

variable {α : Type} [DecidableEq α]

theorem lev_nil_left (ys : List α) : lev [] ys = ys.length := by
  simp [lev]

theorem lev_nil_right (xs : List α) : lev xs [] = xs.length := by
  cases xs <;> simp [lev]

theorem lev_cons_cons (x y : α) (xs ys : List α) :
    lev (x :: xs) (y :: ys)
      = min (lev xs (y :: ys) + 1)
          (min (lev (x :: xs) ys + 1) (lev xs ys + (if x = y then 0 else 1))) := by
  rw [lev]

theorem min3_le₁ (a b c : Nat) : min a (min b c) ≤ a := min_le_left _ _

theorem min3_le₂ (a b c : Nat) : min a (min b c) ≤ b :=
  le_trans (min_le_right _ _) (min_le_left _ _)

theorem min3_le₃ (a b c : Nat) : min a (min b c) ≤ c :=
  le_trans (min_le_right _ _) (min_le_right _ _)

/-- Exchange of the two grouping orders of a 3×3 minimum (rows of the
Levenshtein recurrence against columns), the combinatorial core of the
snoc-recurrence. -/
theorem lev_snoc_core (t1 t2 t3 t4 t5 t6 t7 t8 t9 c1 c2 : Nat) :
    min (min (t1+1) (min (t2+1) (t3+c2)) + 1)
        (min (min (t4+1) (min (t5+1) (t6+c2)) + 1)
             (min (t7+1) (min (t8+1) (t9+c2)) + c1))
      = min (min (t1+1) (min (t4+1) (t7+c1)) + 1)
            (min (min (t2+1) (min (t5+1) (t8+c1)) + 1)
                 (min (t3+1) (min (t6+1) (t9+c1)) + c2)) := by
  apply le_antisymm
  · refine le_min ?_ (le_min ?_ ?_)
    · conv_rhs => rw [← Nat.add_min_add_right, ← Nat.add_min_add_right]
      refine le_min ?_ (le_min ?_ ?_)
      · exact le_trans (min3_le₁ _ _ _) (Nat.add_le_add_right (min3_le₁ _ _ _) 1)
      · exact le_trans (min3_le₂ _ _ _) (Nat.add_le_add_right (min3_le₁ _ _ _) 1)
      · exact le_trans (min3_le₃ _ _ _)
          (le_trans (Nat.add_le_add_right (min3_le₁ _ _ _) c1) (le_of_eq (by omega)))
    · conv_rhs => rw [← Nat.add_min_add_right, ← Nat.add_min_add_right]
      refine le_min ?_ (le_min ?_ ?_)
      · exact le_trans (min3_le₁ _ _ _) (Nat.add_le_add_right (min3_le₂ _ _ _) 1)
      · exact le_trans (min3_le₂ _ _ _) (Nat.add_le_add_right (min3_le₂ _ _ _) 1)
      · exact le_trans (min3_le₃ _ _ _)
          (le_trans (Nat.add_le_add_right (min3_le₂ _ _ _) c1) (le_of_eq (by omega)))
    · conv_rhs => rw [← Nat.add_min_add_right, ← Nat.add_min_add_right]
      refine le_min ?_ (le_min ?_ ?_)
      · exact le_trans (min3_le₁ _ _ _)
          (le_trans (Nat.add_le_add_right (min3_le₃ _ _ _) 1) (le_of_eq (by omega)))
      · exact le_trans (min3_le₂ _ _ _)
          (le_trans (Nat.add_le_add_right (min3_le₃ _ _ _) 1) (le_of_eq (by omega)))
      · exact le_trans (min3_le₃ _ _ _)
          (le_trans (Nat.add_le_add_right (min3_le₃ _ _ _) c1) (le_of_eq (by omega)))
  · refine le_min ?_ (le_min ?_ ?_)
    · conv_rhs => rw [← Nat.add_min_add_right, ← Nat.add_min_add_right]
      refine le_min ?_ (le_min ?_ ?_)
      · exact le_trans (min3_le₁ _ _ _) (Nat.add_le_add_right (min3_le₁ _ _ _) 1)
      · exact le_trans (min3_le₂ _ _ _) (Nat.add_le_add_right (min3_le₁ _ _ _) 1)
      · exact le_trans (min3_le₃ _ _ _)
          (le_trans (Nat.add_le_add_right (min3_le₁ _ _ _) c2) (le_of_eq (by omega)))
    · conv_rhs => rw [← Nat.add_min_add_right, ← Nat.add_min_add_right]
      refine le_min ?_ (le_min ?_ ?_)
      · exact le_trans (min3_le₁ _ _ _) (Nat.add_le_add_right (min3_le₂ _ _ _) 1)
      · exact le_trans (min3_le₂ _ _ _) (Nat.add_le_add_right (min3_le₂ _ _ _) 1)
      · exact le_trans (min3_le₃ _ _ _)
          (le_trans (Nat.add_le_add_right (min3_le₂ _ _ _) c2) (le_of_eq (by omega)))
    · conv_rhs => rw [← Nat.add_min_add_right, ← Nat.add_min_add_right]
      refine le_min ?_ (le_min ?_ ?_)
      · exact le_trans (min3_le₁ _ _ _)
          (le_trans (Nat.add_le_add_right (min3_le₃ _ _ _) 1) (le_of_eq (by omega)))
      · exact le_trans (min3_le₂ _ _ _)
          (le_trans (Nat.add_le_add_right (min3_le₃ _ _ _) 1) (le_of_eq (by omega)))
      · exact le_trans (min3_le₃ _ _ _)
          (le_trans (Nat.add_le_add_right (min3_le₃ _ _ _) c2) (le_of_eq (by omega)))

/-- The snoc-recurrence for Levenshtein distance: appending one element to
each argument satisfies the same three-way minimum as the front
recurrence.  This is what lets the row DP, which grows prefixes, compute
the front-recursive distance. -/
theorem lev_snoc (a b : α) :
    ∀ (n : Nat) (xs ys : List α), xs.length + ys.length ≤ n →
      lev (xs ++ [a]) (ys ++ [b])
        = min (lev xs (ys ++ [b]) + 1)
            (min (lev (xs ++ [a]) ys + 1) (lev xs ys + (if a = b then 0 else 1))) := by
  intro n
  induction n with
  | zero =>
    intro xs ys h
    obtain rfl : xs = [] := List.eq_nil_of_length_eq_zero (by omega)
    obtain rfl : ys = [] := List.eq_nil_of_length_eq_zero (by omega)
    simpa using lev_cons_cons a b [] []
  | succ n ih =>
    intro xs ys h
    match xs, ys with
    | [], [] => simpa using lev_cons_cons a b [] []
    | [], y :: ys' =>
      simp only [List.nil_append, List.cons_append]
      rw [lev_cons_cons a y [] (ys' ++ [b])]
      have hy : ([] : List α).length + ys'.length ≤ n := by
        simp only [List.length_cons] at h
        simp only [List.length_nil]
        omega
      have IH := ih [] ys' hy
      simp only [List.nil_append] at IH
      rw [IH]
      rw [lev_cons_cons a y [] ys']
      simp only [lev_nil_left, List.length_append, List.length_cons, List.length_nil]
      omega
    | x :: xs', [] =>
      simp only [List.cons_append, List.nil_append]
      rw [lev_cons_cons x b (xs' ++ [a]) []]
      have hx : xs'.length + ([] : List α).length ≤ n := by
        simp only [List.length_cons] at h
        simp only [List.length_nil]
        omega
      have IH := ih xs' [] hx
      simp only [List.nil_append] at IH
      rw [IH]
      rw [lev_cons_cons x b xs' []]
      simp only [lev_nil_left, lev_nil_right, List.length_append, List.length_cons,
        List.length_nil]
      omega
    | x :: xs', y :: ys' =>
      simp only [List.cons_append]
      rw [lev_cons_cons x y (xs' ++ [a]) (ys' ++ [b])]
      have h' : xs'.length + ys'.length + 2 ≤ n + 1 := by
        simp only [List.length_cons] at h
        omega
      have IH1 := ih xs' (y :: ys') (by simp only [List.length_cons]; omega)
      simp only [List.cons_append] at IH1
      have IH2 := ih (x :: xs') ys' (by simp only [List.length_cons]; omega)
      simp only [List.cons_append] at IH2
      have IH3 := ih xs' ys' (by omega)
      rw [IH1, IH2, IH3]
      rw [lev_cons_cons x y xs' (ys' ++ [b]), lev_cons_cons x y (xs' ++ [a]) ys',
        lev_cons_cons x y xs' ys']
      exact lev_snoc_core _ _ _ _ _ _ _ _ _ _ _

/-- The row of prefix distances that the DP maintains: for reference prefix
`pref` already consumed, `levRow xs pref bs` lists `lev xs (pref ++ take j bs)`
for `j = 1 .. bs.length`. -/
def levRow (xs : List α) : List α → List α → List Nat
  | _, [] => []
  | pref, y :: ys => lev xs (pref ++ [y]) :: levRow xs (pref ++ [y]) ys

theorem dpStepAux_levRow (a : α) (xs : List α) :
    ∀ (bs pref : List α),
      dpStepAux a bs (levRow xs pref bs) (lev xs pref) (lev (xs ++ [a]) pref)
        = levRow (xs ++ [a]) pref bs := by
  intro bs
  induction bs with
  | nil => intro pref; rfl
  | cons b bs ih =>
    intro pref
    simp only [levRow, dpStepAux]
    rw [show min (lev xs (pref ++ [b]) + 1)
        (min (lev (xs ++ [a]) pref + 1) (lev xs pref + (if a = b then 0 else 1)))
        = lev (xs ++ [a]) (pref ++ [b]) from (lev_snoc a b _ xs pref le_rfl).symm]
    rw [ih (pref ++ [b])]

theorem dpStep_levRow (a : α) (xs b : List α) :
    dpStep a b (lev xs [] :: levRow xs [] b)
      = lev (xs ++ [a]) [] :: levRow (xs ++ [a]) [] b := by
  simp only [dpStep]
  rw [show lev xs [] + 1 = lev (xs ++ [a]) [] by
    rw [lev_nil_right, lev_nil_right]; simp]
  rw [dpStepAux_levRow a xs b []]

theorem foldl_dpStep (b : List α) :
    ∀ (as xs : List α),
      as.foldl (fun dp a => dpStep a b dp) (lev xs [] :: levRow xs [] b)
        = lev (xs ++ as) [] :: levRow (xs ++ as) [] b := by
  intro as
  induction as with
  | nil => intro xs; simp
  | cons a as ih =>
    intro xs
    simp only [List.foldl_cons]
    rw [dpStep_levRow a xs b]
    rw [ih (xs ++ [a])]
    rw [show xs ++ a :: as = (xs ++ [a]) ++ as by simp]

theorem levRow_nil_fun :
    ∀ (bs pref : List α), levRow ([] : List α) pref bs
      = List.range' (pref.length + 1) bs.length := by
  intro bs
  induction bs with
  | nil => intro pref; simp [levRow]
  | cons y ys ih =>
    intro pref
    simp only [levRow, lev_nil_left, List.length_append, List.length_cons,
      List.length_nil, ih (pref ++ [y])]
    rfl

theorem getLastD_levRow (xs : List α) :
    ∀ (bs pref : List α) (v : Nat), bs ≠ [] →
      (levRow xs pref bs).getLastD v = lev xs (pref ++ bs) := by
  intro bs
  induction bs with
  | nil => intro pref v h; exact absurd rfl h
  | cons b bs ih =>
    intro pref v _
    simp only [levRow]
    rw [List.getLastD_cons]
    by_cases hbs : bs = []
    · subst hbs
      rfl
    · rw [ih (pref ++ [b]) (lev xs (pref ++ [b])) hbs]
      rw [show (pref ++ [b]) ++ bs = pref ++ b :: bs by simp]

/-- The single-row DP of `_edit_distance` computes exactly the textbook
Levenshtein distance. -/
theorem edit_distance_eq_lev (seq_a seq_b : List α) :
    edit_distance seq_a seq_b = lev seq_a seq_b := by
  unfold edit_distance
  by_cases ha : seq_a.isEmpty
  · rw [if_pos ha]
    rw [List.isEmpty_iff.mp ha, lev_nil_left]
  · rw [if_neg ha]
    by_cases hb : seq_b.isEmpty
    · rw [if_pos hb]
      rw [List.isEmpty_iff.mp hb, lev_nil_right]
    · rw [if_neg hb]
      have hinit : List.range (seq_b.length + 1)
          = lev ([] : List α) [] :: levRow ([] : List α) [] seq_b := by
        rw [levRow_nil_fun seq_b [], List.range_eq_range']
        simp only [lev_nil_left, List.length_nil]
        rfl
      rw [hinit]
      rw [foldl_dpStep seq_b seq_a []]
      simp only [List.nil_append]
      rw [List.getLastD_cons]
      exact getLastD_levRow seq_a seq_b [] (lev seq_a [])
        (fun hnil => hb (by rw [hnil]; rfl))
        |>.trans (by rw [List.nil_append])

end EditDistance

/-- **C9** (confirmed): the recognition error is the language-dependent
normalized edit distance.  English: word error rate = textbook Levenshtein
distance (`lev`) over the WER-normalized word sequences divided by
`max 1 (reference word count)`, with an empty normalized reference giving
`1` against a non-empty hypothesis and `0` otherwise; other languages: the
same shape over CER-normalized character sequences; and concretely,
reference "the cat sat" against hypothesis "the dog sat" gives `1/3`. -/
theorem C9_asr_error :
    (∀ ref hyp : List Char,
      asr_error (normalize_reference ref "en") hyp "en"
        = (let r := normalize_for_wer ref
           let h := normalize_for_wer hyp
           if r = [] then (if h = [] then (0:ℚ) else 1)
           else (lev r h : ℚ) / (max 1 r.length : ℚ)))
    ∧ (∀ (ref hyp : List Char) (lang : String), lang ≠ "en" →
        asr_error (normalize_reference ref lang) hyp lang
          = (let r := normalize_for_cer ref
             let h := normalize_for_cer hyp
             if r = [] then (if h = [] then (0:ℚ) else 1)
             else (lev r h : ℚ) / (max 1 r.length : ℚ)))
    ∧ asr_error (normalize_reference "the cat sat".toList "en") "the dog sat".toList "en"
        = 1/3 := by
  have hwer : ∀ r h : List (List Char),
      wer r h = (if r = [] then (if h = [] then (0:ℚ) else 1)
        else (lev r h : ℚ) / (max 1 r.length : ℚ)) := by
    intro r h
    unfold wer
    by_cases hr : r = []
    · simp [hr]
    · rw [if_neg hr, if_neg hr, edit_distance_eq_lev]
  have hcer : ∀ r h : List Char,
      cer r h = (if r = [] then (if h = [] then (0:ℚ) else 1)
        else (lev r h : ℚ) / (max 1 r.length : ℚ)) := by
    intro r h
    unfold cer
    by_cases hr : r = []
    · simp [hr]
    · rw [if_neg hr, if_neg hr, edit_distance_eq_lev]
  refine ⟨?_, ?_, ?_⟩
  · intro ref hyp
    simp only [asr_error, normalize_reference, if_pos rfl]
    exact hwer _ _
  · intro ref hyp lang hlang
    simp only [asr_error, normalize_reference, if_neg hlang]
    exact hcer _ _
  · have hword1 : normalize_for_wer "the cat sat".toList
        = [['t','h','e'], ['c','a','t'], ['s','a','t']] := by
      simp [normalize_for_wer, splitKeepRuns, werKeep]
    have hword2 : normalize_for_wer "the dog sat".toList
        = [['t','h','e'], ['d','o','g'], ['s','a','t']] := by
      simp [normalize_for_wer, splitKeepRuns, werKeep]
    have e1 : normalize_reference "the cat sat".toList "en"
        = RefNorm.wer [['t','h','e'], ['c','a','t'], ['s','a','t']] := by
      unfold normalize_reference
      rw [if_pos (show ("en" : String) = "en" from rfl), hword1]
    rw [e1]
    simp only [asr_error]
    rw [if_pos trivial]
    rw [hword2]
    unfold wer
    rw [if_neg (by simp)]
    rw [show edit_distance [['t','h','e'], ['c','a','t'], ['s','a','t']]
        [['t','h','e'], ['d','o','g'], ['s','a','t']] = 1 from rfl]
    norm_num

/-- **C9** witness: the CER branch of the theorem applied at the Japanese
language tag with concrete reference and hypothesis strings. -/
theorem C9_asr_error_witness :
    asr_error (normalize_reference ['a'] "ja") ['b'] "ja"
      = (let r := normalize_for_cer ['a']
         let h := normalize_for_cer ['b']
         if r = [] then (if h = [] then (0:ℚ) else 1)
         else (lev r h : ℚ) / (max 1 r.length : ℚ)) :=
  C9_asr_error.2.1 ['a'] ['b'] "ja" (by decide)

theorem argmin_fold_inv (scores : List ℚ) :
    ∀ (m k b r : Nat), b < k →
      (∀ j, j < k → scores.getD b 0 ≤ scores.getD j 0) →
      (∀ j, j < b → scores.getD b 0 < scores.getD j 0) →
      r = (List.range' k m).foldl
        (fun best i => if scores.getD i 0 < scores.getD best 0 then i else best) b →
      r < k + m ∧ (∀ j, j < k + m → scores.getD r 0 ≤ scores.getD j 0)
        ∧ (∀ j, j < r → scores.getD r 0 < scores.getD j 0) := by
  intro m
  induction m with
  | zero =>
    intro k b r hb hmin hstrict hr
    simp only [List.range'] at hr
    subst hr
    exact ⟨by omega, fun j hj => hmin j (by omega), hstrict⟩
  | succ m ih =>
    intro k b r hb hmin hstrict hr
    rw [show List.range' k (m + 1) = k :: List.range' (k + 1) m from rfl,
      List.foldl_cons] at hr
    by_cases hlt : scores.getD k 0 < scores.getD b 0
    · rw [if_pos hlt] at hr
      have hmin' : ∀ j, j < k + 1 → scores.getD k 0 ≤ scores.getD j 0 := by
        intro j hj
        by_cases hjk : j = k
        · rw [hjk]
        · exact le_of_lt (lt_of_lt_of_le hlt (hmin j (by omega)))
      have hstrict' : ∀ j, j < k → scores.getD k 0 < scores.getD j 0 :=
        fun j hj => lt_of_lt_of_le hlt (hmin j hj)
      have := ih (k + 1) k r (by omega) hmin' hstrict' hr
      exact ⟨by omega, fun j hj => this.2.1 j (by omega), this.2.2⟩
    · rw [if_neg hlt] at hr
      have hmin' : ∀ j, j < k + 1 → scores.getD b 0 ≤ scores.getD j 0 := by
        intro j hj
        by_cases hjk : j = k
        · rw [hjk]; exact not_lt.mp hlt
        · exact hmin j (by omega)
      have := ih (k + 1) b r (by omega) hmin' hstrict hr
      exact ⟨by omega, fun j hj => this.2.1 j (by omega), this.2.2⟩

theorem argminIdx_spec (scores : List ℚ) (h : scores ≠ []) :
    argminIdx scores < scores.length
      ∧ (∀ j, j < scores.length →
          scores.getD (argminIdx scores) 0 ≤ scores.getD j 0)
      ∧ (∀ j, j < argminIdx scores →
          scores.getD (argminIdx scores) 0 < scores.getD j 0) := by
  obtain ⟨n, hn⟩ : ∃ n, scores.length = n + 1 :=
    ⟨scores.length - 1, by have := List.length_pos.mpr h; omega⟩
  have hval : argminIdx scores = (List.range' 1 n).foldl
      (fun best i => if scores.getD i 0 < scores.getD best 0 then i else best) 0 := by
    unfold argminIdx
    rw [hn, List.range_eq_range',
      show List.range' 0 (n + 1) = 0 :: List.range' 1 n from rfl, List.foldl_cons]
    congr 1
    simp
  have := argmin_fold_inv scores n 1 0 (argminIdx scores) (by omega)
    (fun j hj => by
      have : j = 0 := by omega
      rw [this])
    (fun j hj => absurd hj (by omega)) hval
  rw [hn]
  exact ⟨by omega, fun j hj => this.2.1 j (by omega), this.2.2⟩

theorem applyAsrTexts_length (r : RefNorm) (lang : String) :
    ∀ (cs : List BestOfNCandidate) (ts : List (List Char)),
      (applyAsrTexts r lang cs ts).length = cs.length := by
  intro cs
  induction cs with
  | nil => intro ts; cases ts <;> rfl
  | cons c cs ih =>
    intro ts
    cases ts with
    | nil => rfl
    | cons t ts => simp [applyAsrTexts, ih ts]

theorem applyAsrTexts_mem (r : RefNorm) (lang : String) :
    ∀ (cs : List BestOfNCandidate) (ts : List (List Char)),
      cs.length ≤ ts.length →
      ∀ c ∈ applyAsrTexts r lang cs ts,
        ∃ t ∈ ts, c.asr_text = some t ∧ c.asr_err = some (asr_error r t lang) := by
  intro cs
  induction cs with
  | nil => intro ts _ c hc; cases ts <;> simp [applyAsrTexts] at hc
  | cons c0 cs ih =>
    intro ts hlen c hc
    cases ts with
    | nil => simp at hlen
    | cons t ts =>
      simp only [applyAsrTexts, List.mem_cons] at hc
      rcases hc with hc | hc
      · exact ⟨t, by simp, by rw [hc], by rw [hc]⟩
      · have hlen' : cs.length ≤ ts.length := by
          simp only [List.length_cons] at hlen
          omega
        obtain ⟨t', ht', h1, h2⟩ := ih ts hlen' c hc
        exact ⟨t', by simp [ht'], h1, h2⟩

theorem selector_post (out : List BestOfNCandidate) (hne : out ≠ []) :
    argminIdx (out.map (fun c => c.score.getD 0)) < out.length
      ∧ (∀ j, j < out.length →
          (out.map (fun c => c.score.getD 0)).getD
              (argminIdx (out.map (fun c => c.score.getD 0))) 0
            ≤ (out.map (fun c => c.score.getD 0)).getD j 0)
      ∧ (∀ j, j < argminIdx (out.map (fun c => c.score.getD 0)) →
          (out.map (fun c => c.score.getD 0)).getD
              (argminIdx (out.map (fun c => c.score.getD 0))) 0
            < (out.map (fun c => c.score.getD 0)).getD j 0) := by
  have h := argminIdx_spec (out.map (fun c => c.score.getD 0))
    (by simpa using hne)
  rwa [List.length_map] at h

/-- **C1** (confirmed): whenever the pool is non-empty and the recognition
collaborator returns one transcript per waveform, `score_candidates`
succeeds, assigns every candidate the score
`recognitionError + 0.3*(0.4*lengthPenalty + 0.4*silencePenalty +
0.2*repeatPenalty)` (a missing recognition error read as `1`), and returns
the stable arg-min index of the scores (ties to the lowest index); on the
spec's example score lists `[0.8, 0.3, 0.5]` and `[0.3, 0.3]` the selection
is index 1 and index 0 respectively. -/
theorem C1_selector (g2pEn g2pJa : List Char → Nat) (text : List Char)
    (cands : List BestOfNCandidate) (sample_rate : Nat) (language : String)
    (transcribe : List (List ℚ) → List (List Char))
    (hne : cands ≠ []) :
    (∃ out idx,
      score_candidates g2pEn g2pJa (some transcribe) text cands sample_rate language
        = .ok (out, idx)
      ∧ out.length = cands.length
      ∧ (∀ c ∈ out, c.score = some (c.asr_err.getD 1
          + HYBRID_HEUR_WEIGHT * (WEIGHT_LEN * c.len_pen + WEIGHT_SILENCE * c.sil_pen
              + WEIGHT_REPEAT * c.rep_pen)))
      ∧ idx = argminIdx (out.map (fun c => c.score.getD 0))
      ∧ idx < out.length
      ∧ (∀ j, j < out.length →
          (out.map (fun c => c.score.getD 0)).getD idx 0
            ≤ (out.map (fun c => c.score.getD 0)).getD j 0)
      ∧ (∀ j, j < idx →
          (out.map (fun c => c.score.getD 0)).getD idx 0
            < (out.map (fun c => c.score.getD 0)).getD j 0))
    ∧ argminIdx [4/5, 3/10, 1/2] = 1 ∧ argminIdx [3/10, 3/10] = 0 := by
  constructor
  · simp only [score_candidates, if_neg hne]
    refine ⟨_, _, rfl, ?_, ?_, rfl, ?_, ?_, ?_⟩
    · rw [List.length_map, applyAsrTexts_length, List.length_map]
    · intro c hc
      obtain ⟨c', -, rfl⟩ := List.mem_map.mp hc
      rfl
    · exact (selector_post _ (by
        apply List.ne_nil_of_length_pos
        rw [List.length_map, applyAsrTexts_length, List.length_map]
        exact List.length_pos.mpr hne)).1
    · exact (selector_post _ (by
        apply List.ne_nil_of_length_pos
        rw [List.length_map, applyAsrTexts_length, List.length_map]
        exact List.length_pos.mpr hne)).2.1
    · exact (selector_post _ (by
        apply List.ne_nil_of_length_pos
        rw [List.length_map, applyAsrTexts_length, List.length_map]
        exact List.length_pos.mpr hne)).2.2
  · constructor
    · unfold argminIdx
      norm_num [List.range_succ]
    · unfold argminIdx
      norm_num [List.range_succ]

/-- **C1** witness: the theorem applied at a concrete one-candidate pool
with a constant transcriber, projected to the concrete selection examples. -/
theorem C1_selector_witness :
    argminIdx [4/5, 3/10, 1/2] = 1 ∧ argminIdx [3/10, 3/10] = 0 :=
  (C1_selector (fun _ => 1) (fun _ => 1) ['h', 'i']
    [{ tokens := [1], audio := [1] }] 16000 "en"
    (fun l => l.map (fun _ => ([] : List Char))) (by simp)).2

/-- **C4** (confirmed): recognition scoring is all-or-nothing.  With no
recognition collaborator, `score_candidates` on a non-empty pool fails fast
with the ASR-required error and no candidate is scored; with a collaborator
that returns one transcript per waveform (the recognition contract), the
call succeeds and *every* candidate in the returned pool carries a score
and a recognition error computed from an actual transcription of the
pool's audio. -/
theorem C4_all_or_nothing :
    (∀ (g2pEn g2pJa : List Char → Nat) (text : List Char)
        (cands : List BestOfNCandidate) (sample_rate : Nat) (language : String),
      cands ≠ [] →
      score_candidates g2pEn g2pJa none text cands sample_rate language
        = .error "ASR is required but not available.")
    ∧ (∀ (g2pEn g2pJa : List Char → Nat) (text : List Char)
        (cands : List BestOfNCandidate) (sample_rate : Nat) (language : String)
        (transcribe : List (List ℚ) → List (List Char)),
      (∀ l, (transcribe l).length = l.length) →
      cands ≠ [] →
      ∃ out idx,
        score_candidates g2pEn g2pJa (some transcribe) text cands sample_rate language
          = .ok (out, idx)
        ∧ out.length = cands.length
        ∧ ∀ c ∈ out, c.score.isSome
            ∧ ∃ t ∈ transcribe (cands.map (·.audio)),
                c.asr_text = some t
                ∧ c.asr_err = some (asr_error
                    (normalize_reference text (resolve_language text language)) t
                    (resolve_language text language))) := by
  constructor
  · intro g2pEn g2pJa text cands sample_rate language hne
    simp only [score_candidates, if_neg hne]
  · intro g2pEn g2pJa text cands sample_rate language transcribe hlen hne
    simp only [score_candidates, if_neg hne]
    refine ⟨_, _, rfl, ?_, ?_⟩
    · rw [List.length_map, applyAsrTexts_length, List.length_map]
    · intro c hc
      obtain ⟨c', hc', rfl⟩ := List.mem_map.mp hc
      refine ⟨rfl, ?_⟩
      have haudio : ((cands.map (fun c =>
          { c with
            rep_pen := repeat_penalty c.tokens
            len_pen := length_penalty g2pEn g2pJa text c.tokens
              (resolve_language text language)
            sil_pen := silence_penalty c.audio sample_rate })).map (·.audio))
          = cands.map (·.audio) := by
        rw [List.map_map]
        rfl
      have hmemlen : (cands.map (fun c =>
          { c with
            rep_pen := repeat_penalty c.tokens
            len_pen := length_penalty g2pEn g2pJa text c.tokens
              (resolve_language text language)
            sil_pen := silence_penalty c.audio sample_rate })).length
          ≤ (transcribe ((cands.map (fun c =>
            { c with
              rep_pen := repeat_penalty c.tokens
              len_pen := length_penalty g2pEn g2pJa text c.tokens
                (resolve_language text language)
              sil_pen := silence_penalty c.audio sample_rate })).map (·.audio))).length := by
        simp [hlen]
      obtain ⟨t, ht, h1, h2⟩ := applyAsrTexts_mem _ _ _ _ hmemlen c' hc'
      rw [haudio] at ht
      exact ⟨t, ht, h1, h2⟩

/-- **C4** witness: both branches applied at a concrete one-candidate pool:
the fail-fast error with the collaborator absent, and the fully scored pool
with a constant transcriber present. -/
theorem C4_all_or_nothing_witness :
    score_candidates (fun _ => 1) (fun _ => 1) none ['h']
        [{ tokens := [1], audio := [1] }] 8000 "en"
      = .error "ASR is required but not available."
    ∧ ∃ out idx,
        score_candidates (fun _ => 1) (fun _ => 1)
            (some (fun l => l.map (fun _ => ([] : List Char)))) ['h']
            [{ tokens := [1], audio := [1] }] 8000 "en"
          = .ok (out, idx)
        ∧ out.length = ([{ tokens := [1], audio := [1] }] : List BestOfNCandidate).length
        ∧ ∀ c ∈ out, c.score.isSome
            ∧ ∃ t ∈ (fun (l : List (List ℚ)) => l.map (fun _ => ([] : List Char)))
                (([{ tokens := [1], audio := [1] }] : List BestOfNCandidate).map (·.audio)),
                c.asr_text = some t
                ∧ c.asr_err = some (asr_error
                    (normalize_reference ['h'] (resolve_language ['h'] "en")) t
                    (resolve_language ['h'] "en")) :=
  ⟨C4_all_or_nothing.1 (fun _ => 1) (fun _ => 1) ['h']
      [{ tokens := [1], audio := [1] }] 8000 "en" (by simp),
    C4_all_or_nothing.2 (fun _ => 1) (fun _ => 1) ['h']
      [{ tokens := [1], audio := [1] }] 8000 "en"
      (fun l => l.map (fun _ => ([] : List Char))) (fun l => by simp) (by simp)⟩

/-- The retry triggers of `_post_with_retry`: a response whose status is in
`RETRYABLE_STATUS_CODES`, a timeout, or a connection error. -/
def retryableOutcome : PostOutcome → Prop
  | .status code _ => code ∈ RETRYABLE_STATUS_CODES
  | .timeout => True
  | .connectError => True

/-- The error `_post_with_retry` surfaces when its final attempt sees the
given outcome. -/
def lastErr : PostOutcome → LLMError
  | .status code _ => .httpStatus code
  | .timeout => .timeoutExc
  | .connectError => .connectExc

theorem retryLoop_attempts_le (mr : Nat) (d : ℚ) (resp : Nat → PostOutcome) :
    ∀ (fuel attempt : Nat) (lastExc : Option LLMError) (delays : List ℚ),
      mr - attempt ≤ fuel → attempt ≤ mr →
      (retryLoop mr d resp attempt lastExc delays).attempts ≤ mr := by
  intro fuel
  induction fuel with
  | zero =>
    intro attempt lastExc delays hfuel hle
    rw [retryLoop, dif_neg (by omega)]
    exact hle
  | succ fuel ih =>
    intro attempt lastExc delays hfuel hle
    by_cases hlt : attempt < mr
    · rw [retryLoop, dif_pos hlt]
      cases hresp : resp attempt with
      | status code body =>
        dsimp only
        by_cases hret : code ∈ RETRYABLE_STATUS_CODES
        · rw [if_pos hret]
          by_cases hfin : attempt < mr - 1
          · rw [if_pos hfin]
            exact ih (attempt + 1) lastExc _ (by omega) (by omega)
          · rw [if_neg hfin]
            exact hlt
        · rw [if_neg hret]
          by_cases h400 : 400 ≤ code
          · rw [if_pos h400]
            exact hlt
          · rw [if_neg h400]
            cases body <;> exact hlt
      | timeout =>
        dsimp only
        by_cases hfin : attempt < mr - 1
        · rw [if_pos hfin]
          exact ih (attempt + 1) _ _ (by omega) (by omega)
        · rw [if_neg hfin]
          exact ih (attempt + 1) _ _ (by omega) (by omega)
      | connectError =>
        dsimp only
        by_cases hfin : attempt < mr - 1
        · rw [if_pos hfin]
          exact ih (attempt + 1) _ _ (by omega) (by omega)
        · rw [if_neg hfin]
          exact ih (attempt + 1) _ _ (by omega) (by omega)
    · rw [retryLoop, dif_neg hlt]
      exact hle

theorem retryLoop_all_retryable (mr : Nat) (d : ℚ) (resp : Nat → PostOutcome)
    (hall : ∀ k, k < mr → retryableOutcome (resp k)) :
    ∀ (fuel attempt : Nat) (lastExc : Option LLMError) (delays : List ℚ),
      mr - attempt ≤ fuel → attempt < mr →
      retryLoop mr d resp attempt lastExc delays
        = ⟨.error (lastErr (resp (mr - 1))), mr,
            delays ++ (List.range' attempt (mr - 1 - attempt)).map (fun k => d * 2 ^ k)⟩ := by
  intro fuel
  induction fuel with
  | zero => intro attempt lastExc delays hfuel hatt; omega
  | succ fuel ih =>
    intro attempt lastExc delays hfuel hatt
    rw [retryLoop, dif_pos hatt]
    by_cases hfin : attempt < mr - 1
    · have hrange : List.range' attempt (mr - 1 - attempt)
          = attempt :: List.range' (attempt + 1) (mr - 1 - (attempt + 1)) := by
        rw [show mr - 1 - attempt = (mr - 1 - (attempt + 1)) + 1 by omega]
        rfl
      cases hresp : resp attempt with
      | status code body =>
        dsimp only
        have hret : code ∈ RETRYABLE_STATUS_CODES := by
          have := hall attempt hatt
          rw [hresp] at this
          exact this
        rw [if_pos hret, if_pos hfin]
        rw [ih (attempt + 1) lastExc _ (by omega) (by omega)]
        rw [hrange]
        simp
      | timeout =>
        dsimp only
        rw [if_pos hfin]
        rw [ih (attempt + 1) _ _ (by omega) (by omega)]
        rw [hrange]
        simp
      | connectError =>
        dsimp only
        rw [if_pos hfin]
        rw [ih (attempt + 1) _ _ (by omega) (by omega)]
        rw [hrange]
        simp
    · have hlastidx : attempt = mr - 1 := by omega
      have hrange : List.range' attempt (mr - 1 - attempt) = [] := by
        rw [show mr - 1 - attempt = 0 by omega]
        rfl
      cases hresp : resp attempt with
      | status code body =>
        dsimp only
        have hret : code ∈ RETRYABLE_STATUS_CODES := by
          have := hall attempt hatt
          rw [hresp] at this
          exact this
        rw [if_pos hret, if_neg hfin]
        rw [hrange]
        have : resp (mr - 1) = .status code body := by rw [← hlastidx, hresp]
        rw [this]
        simp only [lastErr, List.map_nil, List.append_nil]
        congr 1
        omega
      | timeout =>
        dsimp only
        rw [if_neg hfin]
        rw [retryLoop, dif_neg (by omega)]
        have : resp (mr - 1) = .timeout := by rw [← hlastidx, hresp]
        rw [this, hrange]
        simp only [lastErr, Option.getD_some, List.map_nil, List.append_nil]
        congr 1
        omega
      | connectError =>
        dsimp only
        rw [if_neg hfin]
        rw [retryLoop, dif_neg (by omega)]
        have : resp (mr - 1) = .connectError := by rw [← hlastidx, hresp]
        rw [this, hrange]
        simp only [lastErr, Option.getD_some, List.map_nil, List.append_nil]
        congr 1
        omega

/-- **C5** (confirmed): each chat attempt issues at most `max_retries`
posts; a retryable outcome (status in {429,502,503,504}, timeout,
connection failure) on every attempt exhausts all `max_retries` posts with
exponential backoff delays `retry_delay * 2^k` and raises the last error;
a non-retryable HTTP status fails the attempt after exactly one post with
no delay, as does a malformed response body; with the defaults
(`max_retries = 3`, `base_delay = 0.5`) a permanently timing-out request
issues exactly 3 posts with delays 0.5 and 1.0. -/
theorem C5_retry_policy :
    (∀ (mr : Nat) (d : ℚ) (resp : Nat → PostOutcome),
      (post_with_retry mr d resp).attempts ≤ mr)
    ∧ (∀ (mr : Nat) (d : ℚ) (resp : Nat → PostOutcome), 0 < mr →
        (∀ k, k < mr → retryableOutcome (resp k)) →
        post_with_retry mr d resp
          = ⟨.error (lastErr (resp (mr - 1))), mr,
              (List.range' 0 (mr - 1)).map (fun k => d * 2 ^ k)⟩)
    ∧ (∀ (mr : Nat) (d : ℚ) (resp : Nat → PostOutcome) (c : Nat) (body : RespBody),
        0 < mr → resp 0 = .status c body → c ∉ RETRYABLE_STATUS_CODES → 400 ≤ c →
        post_with_retry mr d resp = ⟨.error (.httpStatus c), 1, []⟩)
    ∧ (∀ (mr : Nat) (d : ℚ) (resp : Nat → PostOutcome) (c : Nat),
        0 < mr → resp 0 = .status c .malformed → c ∉ RETRYABLE_STATUS_CODES → c < 400 →
        post_with_retry mr d resp = ⟨.error .valueError, 1, []⟩)
    ∧ post_with_retry DEFAULT_MAX_RETRIES DEFAULT_RETRY_DELAY (fun _ => .timeout)
        = ⟨.error .timeoutExc, 3, [1/2, 1]⟩ := by
  have himm : ∀ (mr : Nat) (d : ℚ) (resp : Nat → PostOutcome) (c : Nat) (body : RespBody),
      0 < mr → resp 0 = .status c body → c ∉ RETRYABLE_STATUS_CODES →
      post_with_retry mr d resp
        = ⟨if 400 ≤ c then .error (.httpStatus c)
           else (match body with
                 | .content s => .ok s
                 | .malformed => .error .valueError), 1, []⟩ := by
    intro mr d resp c body hmr hresp hret
    unfold post_with_retry
    rw [retryLoop, dif_pos hmr, hresp]
    dsimp only
    rw [if_neg hret]
    by_cases h400 : 400 ≤ c
    · rw [if_pos h400, if_pos h400]
    · rw [if_neg h400, if_neg h400]
      cases body <;> rfl
  refine ⟨?_, ?_, ?_, ?_, ?_⟩
  · intro mr d resp
    exact retryLoop_attempts_le mr d resp mr 0 none [] (by omega) (by omega)
  · intro mr d resp hmr hall
    unfold post_with_retry
    rw [retryLoop_all_retryable mr d resp hall mr 0 none [] (by omega) hmr]
    simp
  · intro mr d resp c body hmr hresp hret h400
    rw [himm mr d resp c body hmr hresp hret, if_pos h400]
  · intro mr d resp c hmr hresp hret h400
    rw [himm mr d resp c .malformed hmr hresp hret, if_neg (by omega)]
  · have hall : ∀ k, k < DEFAULT_MAX_RETRIES →
        retryableOutcome ((fun _ => PostOutcome.timeout) k) := by
      intro k _
      trivial
    rw [show post_with_retry DEFAULT_MAX_RETRIES DEFAULT_RETRY_DELAY (fun _ => .timeout)
        = ⟨.error (lastErr ((fun _ => PostOutcome.timeout) (DEFAULT_MAX_RETRIES - 1))),
            DEFAULT_MAX_RETRIES,
            (List.range' 0 (DEFAULT_MAX_RETRIES - 1)).map
              (fun k => DEFAULT_RETRY_DELAY * 2 ^ k)⟩ from by
      unfold post_with_retry
      rw [retryLoop_all_retryable DEFAULT_MAX_RETRIES DEFAULT_RETRY_DELAY
        (fun _ => .timeout) hall DEFAULT_MAX_RETRIES 0 none [] (by omega) (by norm_num [DEFAULT_MAX_RETRIES])]
      simp]
    simp only [lastErr, DEFAULT_MAX_RETRIES, DEFAULT_RETRY_DELAY]
    norm_num
    rw [show List.range' 0 2 = [0, 1] from rfl]
    norm_num

/-- **C5** witness: the immediate-failure branch applied at a concrete 404
response, together with the concrete default-parameter timeout trace. -/
theorem C5_retry_policy_witness :
    post_with_retry 3 (1/2) (fun _ => .status 404 (.content "nope"))
      = ⟨.error (.httpStatus 404), 1, []⟩
    ∧ post_with_retry DEFAULT_MAX_RETRIES DEFAULT_RETRY_DELAY (fun _ => .timeout)
      = ⟨.error .timeoutExc, 3, [1/2, 1]⟩ :=
  ⟨C5_retry_policy.2.2.1 3 (1/2) (fun _ => .status 404 (.content "nope")) 404
      (.content "nope") (by norm_num) rfl (by decide) (by norm_num),
    C5_retry_policy.2.2.2.2⟩

/-- **C3** (confirmed): for `n > 1` the generator gathers all `n` request
outcomes, keeps exactly the successful texts in order, succeeds whenever at
least one attempt succeeded and raises the aggregate error exactly when all
`n` attempts failed; for `n = 1` it issues exactly one request whose
failure propagates directly (and whose success yields the singleton
batch). -/
theorem C3_fetch_candidates {E : Type} :
    (∀ (attempt : Nat → Except E String) (e : E),
      attempt 0 = .error e → fetch_llm_candidates 1 attempt = .error (.direct e))
    ∧ (∀ (attempt : Nat → Except E String) (t : String),
        attempt 0 = .ok t → fetch_llm_candidates 1 attempt = .ok [t])
    ∧ (∀ (n : Nat) (attempt : Nat → Except E String), 1 < n →
        (∀ k, k < n → ∃ e, attempt k = .error e) →
        fetch_llm_candidates n attempt = .error .allFailed)
    ∧ (∀ (n : Nat) (attempt : Nat → Except E String) (k : Nat) (t : String), 1 < n →
        k < n → attempt k = .ok t →
        fetch_llm_candidates n attempt
          = .ok (((List.range n).map attempt).filterMap Except.toOption)
        ∧ ((List.range n).map attempt).filterMap Except.toOption ≠ []) := by
  refine ⟨?_, ?_, ?_, ?_⟩
  · intro attempt e he
    simp [fetch_llm_candidates, he]
  · intro attempt t ht
    simp [fetch_llm_candidates, ht]
  · intro n attempt hn hall
    simp only [fetch_llm_candidates]
    rw [if_neg (by omega)]
    have hnil : ((List.range n).map attempt).filterMap Except.toOption = [] := by
      rw [List.filterMap_eq_nil_iff]
      intro a ha
      obtain ⟨k, hk, rfl⟩ := List.mem_map.mp ha
      obtain ⟨e, he⟩ := hall k (List.mem_range.mp hk)
      rw [he]
      rfl
    rw [if_pos hnil]
  · intro n attempt k t hn hk hok
    have hmem : t ∈ ((List.range n).map attempt).filterMap Except.toOption := by
      rw [List.mem_filterMap]
      exact ⟨attempt k, List.mem_map.mpr ⟨k, List.mem_range.mpr hk, rfl⟩, by rw [hok]; rfl⟩
    have hne : ((List.range n).map attempt).filterMap Except.toOption ≠ [] :=
      fun hcon => by rw [hcon] at hmem; exact absurd hmem (List.not_mem_nil t)
    constructor
    · simp only [fetch_llm_candidates]
      rw [if_neg (by omega), if_neg hne]
    · exact hne

/-- **C3** witness: `n = 3` with the middle attempt failing still returns
both successful texts in order; all three failing raises the aggregate
error; a single failing attempt propagates its own error directly. -/
theorem C3_fetch_candidates_witness :
    fetch_llm_candidates 3 (fun k => if k = 1 then Except.error "boom"
        else Except.ok (if k = 0 then "a" else "c"))
      = .ok (((List.range 3).map (fun k => if k = 1 then Except.error "boom"
          else Except.ok (if k = 0 then "a" else "c"))).filterMap Except.toOption)
    ∧ fetch_llm_candidates 3 (fun _ => (Except.error "boom" : Except String String))
      = .error .allFailed
    ∧ fetch_llm_candidates 1 (fun _ => (Except.error "boom" : Except String String))
      = .error (.direct "boom") :=
  ⟨(C3_fetch_candidates.2.2.2 3 _ 0 "a" (by norm_num) (by norm_num) (by norm_num)).1,
    C3_fetch_candidates.2.2.1 3 _ (by norm_num) (fun k _ => ⟨"boom", rfl⟩),
    C3_fetch_candidates.1 _ "boom" rfl⟩

end Miotts
